import Mathlib

set_option maxRecDepth 10000

namespace Crowns

/-! Shallow embedding of the crowns-solver repository.

The grid model follows src/board/cell.py, src/board/board.py,
src/board/line.py and src/board/area.py; the solving engine follows
src/solver/solver.py and src/utils/logic.py.  Cells are identified by
their (row, col) grid position; a board is the matrix of cells built by
Board._create_cell_matrix.  Python's mutable "state" strings
"empty"/"cross"/"crown" become the inductive CellState. -/

/-- States of a cell, mirroring the strings "empty", "cross", "crown"
of src/board/cell.py. -/
inductive CellState
  | empty
  | cross
  | crown
deriving DecidableEq, Repr

/-- A cell of the grid: screen anchor (x, y), size, optional region
color key, and marking state (src/board/cell.py, Cell.__init__). -/
structure Cell where
  x : Int
  y : Int
  size : Int
  color : Option Nat
  state : CellState
deriving DecidableEq, Repr

/-- The board's cell matrix (Board.cells in src/board/board.py). -/
abbrev BoardM := List (List Cell)

/-- A grid position (row index, column index). -/
abbrev Pos := Nat × Nat

/-- Lookup of the cell in a row at a column index. -/
def rowCellAt? : List Cell → Nat → Option Cell
  | [], _ => none
  | c :: _, 0 => some c
  | _ :: t, j + 1 => rowCellAt? t j

/-- Lookup of a cell at a position (Board.get_cell_at). -/
def cellAt? : BoardM → Pos → Option Cell
  | [], _ => none
  | row :: _, (0, j) => rowCellAt? row j
  | _ :: b, (i + 1, j) => cellAt? b (i, j)

/-- Marking state at a position; positions always denote real cells in
the Python code (mutation happens through object references), so the
default branch is never exercised by the theorems. -/
def stateAt (b : BoardM) (p : Pos) : CellState :=
  ((cellAt? b p).map Cell.state).getD .empty

/-- Region color key at a position. -/
def colorAt (b : BoardM) (p : Pos) : Option Nat :=
  (cellAt? b p).bind Cell.color

/-- A position denotes an actual cell of the board. -/
def inBounds (b : BoardM) (p : Pos) : Prop :=
  (cellAt? b p).isSome = true

instance (b : BoardM) (p : Pos) : Decidable (inBounds b p) := by
  unfold inBounds; infer_instance

/-- The board is an n x n matrix. -/
def Square (b : BoardM) (n : Nat) : Prop :=
  b.length = n ∧ ∀ row ∈ b, row.length = n

instance (b : BoardM) (n : Nat) : Decidable (Square b n) := by
  unfold Square; infer_instance

/-- Replacement of the state of the cell at a column index of a row. -/
def setRowState : List Cell → Nat → CellState → List Cell
  | [], _, _ => []
  | c :: t, 0, s => { c with state := s } :: t
  | c :: t, j + 1, s => c :: setRowState t j s

/-- Replacement of the state of the cell at a position (the Python code
mutates cell.state in place). -/
def setStateAt : BoardM → Pos → CellState → BoardM
  | [], _, _ => []
  | row :: b, (0, j), s => setRowState row j s :: b
  | row :: b, (i + 1, j), s => row :: setStateAt b (i, j) s

/-- Cell.toggle_state of src/board/cell.py: empty -> cross -> crown -> empty. -/
def CellState.toggle : CellState → CellState
  | .empty => .cross
  | .cross => .crown
  | .crown => .empty

/-- State change performed by Solver.toggle_cell (the screen click is
modelled separately, see PtrAction below). -/
def toggleAt (b : BoardM) (p : Pos) : BoardM :=
  setStateAt b p (stateAt b p).toggle

/-- Solver.set_cell_cross's while loop: toggle until the cell state is
"cross".  Fuel-indexed; none marks a loop that would run longer. -/
def setCellCrossS : Nat → BoardM → Pos → Option BoardM
  | 0, b, p => if stateAt b p = .cross then some b else none
  | k + 1, b, p =>
    if stateAt b p = .cross then some b else setCellCrossS k (toggleAt b p) p

/-- Solver.set_cell_crown's while loop: toggle until the cell state is
"crown" (the crown counter increment is handled by the caller). -/
def setCellCrownS : Nat → BoardM → Pos → Option BoardM
  | 0, b, p => if stateAt b p = .crown then some b else none
  | k + 1, b, p =>
    if stateAt b p = .crown then some b else setCellCrownS k (toggleAt b p) p

/-! Snapshots (Board.save_state / Board.load_state). -/

/-- Board.save_state: the matrix of the cell states. -/
def saveState (b : BoardM) : List (List CellState) :=
  b.map (List.map Cell.state)

/-- Restoration of one row: Python writes cells[i][j].state for every
index j of the snapshot row, raising IndexError (none) when the
snapshot row is longer than the board row. -/
def loadRow : List Cell → List CellState → Option (List Cell)
  | row, [] => some row
  | [], _ :: _ => none
  | c :: row, s :: ms =>
    (loadRow row ms).map (fun r => { c with state := s } :: r)

/-- Board.load_state: write every state of the snapshot matrix back
into the corresponding cell. -/
def loadState : BoardM → List (List CellState) → Option BoardM
  | b, [] => some b
  | [], _ :: _ => none
  | row :: b, ms :: mss => do
    let r ← loadRow row ms
    let rest ← loadState b mss
    pure (r :: rest)

/-- An arbitrary sequence of cell-state mutations: every mutation the
solver performs on a cell goes through an assignment to its state
field, which this models. -/
def applyWrites (ws : List (Pos × CellState)) (b : BoardM) : BoardM :=
  ws.foldl (fun bb w => setStateAt bb w.1 w.2) b

/-- Two cells agreeing on everything but the marking state. -/
def Cell.staticEq (a b : Cell) : Prop :=
  a.x = b.x ∧ a.y = b.y ∧ a.size = b.size ∧ a.color = b.color

/-- Two boards whose cells agree on everything but the marking state. -/
def StaticEq (b' b : BoardM) : Prop :=
  List.Forall₂ (List.Forall₂ Cell.staticEq) b' b

/-! Board construction (src/board/board.py). -/

/-- The _is_perfect_square check of src/board/board.py
(int(math.sqrt(n)) ** 2 == n, with exact integer square root). -/
def isPerfectSquare (n : Nat) : Bool :=
  Nat.sqrt n ^ 2 == n

/-- The _create_cell_matrix slicing of src/board/board.py:
cells[i*size:(i+1)*size] for i in range(size), size = isqrt(count). -/
def createCellMatrix (cells : List Cell) : BoardM :=
  (List.range (Nat.sqrt cells.length)).map
    (fun i => (cells.drop (i * Nat.sqrt cells.length)).take (Nat.sqrt cells.length))

/-- The construction failure of Board.__init__ on a non-square cell
count (the spec's ShapeError taxonomy entry). -/
inductive BoardError
  | shapeError
deriving DecidableEq, Repr

/-- Board.__init__: reject a non-perfect-square cell count, otherwise
build the cell matrix. -/
def boardInit (cells : List Cell) : Except BoardError BoardM :=
  if isPerfectSquare cells.length then .ok (createCellMatrix cells)
  else .error .shapeError

/-- Whether construction failed. -/
def isErr : Except BoardError BoardM → Bool
  | .error _ => true
  | .ok _ => false

/-! Singleton check (Line.check_empty_spot of src/board/line.py and
Area.check_empty_spot of src/board/area.py share this computation on
their member lists). -/

/-- check_empty_spot: the lone empty cell when the member list has no
crown and exactly one empty cell, otherwise none. -/
def checkEmptySpot (b : BoardM) (cells : List Pos) : Option Pos :=
  let crowns := cells.filter (fun p => stateAt b p = .crown)
  let empties := cells.filter (fun p => stateAt b p = .empty)
  if crowns.isEmpty && empties.length == 1 then empties.head? else none

/-! Lines and areas (src/solver/solver.py create_lines / create_areas). -/

/-- Cells of row r in left-to-right order (Solver.create_lines). -/
def rowCellsIdx (n r : Nat) : List Pos :=
  (List.range n).map (fun j => (r, j))

/-- Cells of column c in top-to-bottom order (Solver.create_lines). -/
def colCellsIdx (n c : Nat) : List Pos :=
  (List.range n).map (fun i => (i, c))

/-- Cells of the area of color k lying in row i, in scan order. -/
def areaRowScan (b : BoardM) (k i n : Nat) : List Pos :=
  (List.range n).filterMap
    (fun j => if colorAt b (i, j) = some k then some (i, j) else none)

/-- Cells of the area of color k, in the row-major scan order in which
Solver.create_areas appends them. -/
def areaCells (b : BoardM) (n k : Nat) : List Pos :=
  (List.range n).flatMap (fun i => areaRowScan b k i n)

/-- Region color keys in first-appearance (row-major) order: the
iteration order of the Solver.areas dict. -/
def colorsInOrder (b : BoardM) (n : Nat) : List Nat :=
  ((List.range n).flatMap
    (fun i => (List.range n).filterMap (fun j => colorAt b (i, j)))).foldl
    (fun acc k => if k ∈ acc then acc else acc ++ [k]) []

/-- len(self.areas): number of regions. -/
def areaCount (b : BoardM) (n : Nat) : Nat :=
  (colorsInOrder b n).length

/-- One row of the 3x3 window of Board.get_surrounding_cells (offset
di from the cell row), clipped to the grid. -/
def surroundRowScan (n : Nat) (p : Pos) (di : Int) : List Pos :=
  ([-1, 0, 1] : List Int).filterMap (fun dj =>
    let i : Int := (p.1 : Int) + di
    let j : Int := (p.2 : Int) + dj
    if 0 ≤ i ∧ i < (n : Int) ∧ 0 ≤ j ∧ j < (n : Int) then some (i.toNat, j.toNat)
    else none)

/-- The full clipped 3x3 window around a cell, the cell included
(Python iterates the int offsets row-1, row, row+1). -/
def surroundCand (n : Nat) (p : Pos) : List Pos :=
  ([-1, 0, 1] : List Int).flatMap (surroundRowScan n p)

/-- Board.get_surrounding_cells: the 3x3 window around a cell clipped
to the grid, with the cell itself removed. -/
def surroundingCells (n : Nat) (p : Pos) : List Pos :=
  (surroundCand n p).erase p

/-- King-move adjacency: q lies in the 3x3 neighborhood of p. -/
def kingAdj (p q : Pos) : Prop :=
  q.1 ≤ p.1 + 1 ∧ p.1 ≤ q.1 + 1 ∧ q.2 ≤ p.2 + 1 ∧ p.2 ≤ q.2 + 1

instance (p q : Pos) : Decidable (kingAdj p q) := by
  unfold kingAdj; infer_instance

/-- Solver.get_crosses_from_crown: the deduplicated union of the
crown's column minus itself, row minus itself, area minus itself
(Modelled from the spec for the area part: Area.get_area_except_cell is
called by the solver but absent from src/board/area.py, so it follows
the spec's cellsExcept contract, members minus the given cell; a crown
with no color would make the Python call fail, which is unreachable
because every cell is colored), and the surrounding cells. -/
def getCrossesFromCrown (b : BoardM) (n : Nat) (p : Pos) : List Pos :=
  let areaPart := match colorAt b p with
    | some k => (areaCells b n k).erase p
    | none => []
  ((colCellsIdx n p.2).erase p ++ (rowCellsIdx n p.1).erase p ++ areaPart ++
    surroundingCells n p).dedup

/-- Solver.cross_cells: set_cell_cross applied to each cell in order. -/
def crossCellsS : BoardM → List Pos → Option BoardM
  | b, [] => some b
  | b, p :: ps => (setCellCrossS 2 b p).bind (fun b' => crossCellsS b' ps)

/-- One committed marking primitive of the live solving loop: every
later state change of the loop is a set_cell_cross or a set_cell_crown
at some cell. -/
inductive CommitStep
  | crossStep (p : Pos)
  | crownStep (p : Pos)
deriving DecidableEq, Repr

/-- Application of one committed marking primitive. -/
def applyCommitStep (b : BoardM) : CommitStep → Option BoardM
  | .crossStep p => setCellCrossS 2 b p
  | .crownStep p => setCellCrownS 2 b p

/-- Application of a sequence of committed marking primitives. -/
def applyCommitSteps : BoardM → List CommitStep → Option BoardM
  | b, [] => some b
  | b, s :: rest => (applyCommitStep b s).bind (fun b' => applyCommitSteps b' rest)

/-! Backtracking search (Solver.guess / Solver.apply_guess). -/

/-- Mutable solver state: the board plus the solver fields touched by
the guess procedure. -/
structure SolverSt where
  board : BoardM
  crowns : Nat
  guessFlag : Bool
  clickEnabled : Bool
  stopFlag : Bool
deriving DecidableEq, Repr

/-- Solver.set_cell_crown at the solver level: the crown counter is
incremented once, then the cell is toggled until it is a crown. -/
def crownCellSt (st : SolverSt) (p : Pos) : Option SolverSt :=
  (setCellCrownS 2 st.board p).map
    (fun b => { st with board := b, crowns := st.crowns + 1 })

/-- Solver.guess with the guess target as a parameter and the recursive
self.solve() run abstracted as a state transformer: snapshot the board
and the crowns / guess_flag / click_enabled fields, speculatively crown
the target, run the solve simulation, report success exactly when the
crown count reached the region count, and restore the snapshot
unconditionally.  The simulated crown count is returned alongside. -/
def guessRun (solveSim : SolverSt → SolverSt) (n : Nat) (st : SolverSt)
    (target : Pos) : Option (Bool × Nat × SolverSt) := do
  let saveBoard := saveState st.board
  let saveCrowns := st.crowns
  let saveGuess := st.guessFlag
  let saveClick := st.clickEnabled
  let st1 := { st with guessFlag := true, clickEnabled := false }
  let st2 ← crownCellSt st1 target
  let st3 := solveSim st2
  let found := st3.crowns == areaCount st.board n
  let b4 ← loadState st3.board saveBoard
  pure (found, st3.crowns,
    { st3 with clickEnabled := saveClick, board := b4, crowns := saveCrowns,
               guessFlag := saveGuess })

/-- Solver.apply_guess: run the guess, return immediately when the stop
flag is observed, otherwise commit a real crown plus its exclusion set
on a validated guess, or a real cross of the guess cell on a failed
one. -/
def applyGuess (solveSim : SolverSt → SolverSt) (n : Nat) (st : SolverSt)
    (target : Pos) : Option SolverSt := do
  let (found, _, st') ← guessRun solveSim n st target
  if st'.stopFlag then pure st'
  else if found then do
    let st2 ← crownCellSt st' target
    let b3 ← crossCellsS st2.board (getCrossesFromCrown st2.board n target)
    pure { st2 with board := b3 }
  else do
    let b2 ← setCellCrossS 2 st'.board target
    pure { st' with board := b2 }

/-! Rule five (Solver.rule_five and utils/logic.py find_matching_entries). -/

/-- All combinations of k elements of a list, in the order produced by
itertools.combinations. -/
def combos : Nat → List α → List (List α)
  | 0, _ => [[]]
  | _ + 1, [] => []
  | k + 1, x :: xs => (combos k xs).map (x :: ·) ++ combos (k + 1) xs

/-- find_matching_entries of src/utils/logic.py: among the entries
whose value set has at most `threshold` elements, the first combination
of `threshold` entries whose combined value set has exactly `threshold`
elements. -/
def findMatchingEntries (d : List (Nat × List Nat)) (threshold : Nat) :
    Option (List Nat) :=
  let filtered := d.filter (fun e => e.2.length ≤ threshold)
  ((combos threshold filtered).find?
    (fun sel => (sel.flatMap (·.2)).dedup.length == threshold)).map
    (List.map (·.1))

/-- The line index (row or column) of a position. -/
def lineOf (isRow : Bool) (p : Pos) : Nat :=
  if isRow then p.1 else p.2

/-- Cells of a line of the given orientation. -/
def lineCellsOf (isRow : Bool) (n i : Nat) : List Pos :=
  if isRow then rowCellsIdx n i else colCellsIdx n i

/-- Area.get_rows_of_empty_cells / get_columns_of_empty_cells: the set
of line indices touched by the empty cells of the area of color k (the
Python set is modelled as a deduplicated list; only its members and its
size are ever used). -/
def linesOfEmpty (b : BoardM) (n : Nat) (isRow : Bool) (k : Nat) : List Nat :=
  (((areaCells b n k).filter (fun p => stateAt b p = .empty)).map
    (lineOf isRow)).dedup

/-- The areas_rows / areas_columns dictionary of rule_five: every area
with a nonempty touched-line set, in dict insertion order. -/
def areasDict (b : BoardM) (n : Nat) (isRow : Bool) : List (Nat × List Nat) :=
  (colorsInOrder b n).filterMap (fun k =>
    let ls := linesOfEmpty b n isRow k
    if ls = [] then none else some (k, ls))

/-- Empty cells of a line, in line order (Line.get_empty_cells). -/
def emptyCellsOfLine (b : BoardM) (n : Nat) (isRow : Bool) (i : Nat) : List Pos :=
  (lineCellsOf isRow n i).filter (fun p => stateAt b p = .empty)

/-- The cells rule_five crosses for one matched group: empty cells of
the lines connected to the matched areas whose own area is outside the
group. -/
def crossesOfMatch (b : BoardM) (n : Nat) (isRow : Bool)
    (matching : List Nat) : List Pos :=
  let matchingLines := (matching.flatMap (linesOfEmpty b n isRow)).dedup
  let allCells := (matchingLines.flatMap (emptyCellsOfLine b n isRow)).dedup
  allCells.filter (fun p => ¬ colorAt b p ∈ matching.map some)

/-- The process_line loop of rule_five: degrees in increasing order,
stopping at the first group whose cross set is nonempty. -/
def processLineGo (b : BoardM) (n : Nat) (isRow : Bool)
    (d : List (Nat × List Nat)) : List Nat → List Pos
  | [] => []
  | i :: rest =>
    match findMatchingEntries d i with
    | none => processLineGo b n isRow d rest
    | some matching =>
      let cs := crossesOfMatch b n isRow matching
      if cs = [] then processLineGo b n isRow d rest else cs

/-- One orientation pass of rule_five (degrees 2 .. ceil(areas/2)). -/
def processLine (b : BoardM) (n : Nat) (isRow : Bool) : List Pos :=
  processLineGo b n isRow (areasDict b n isRow)
    (List.range' 2 ((areaCount b n + 1) / 2 - 1))

/-- Solver.rule_five: the rows pass followed by the columns pass; the
crosses of both accumulate. -/
def ruleFive (b : BoardM) (n : Nat) : List Pos :=
  processLine b n true ++ processLine b n false

/-! Action planner (Solver.cross_cells_path, Line.make_line_segments,
board/line.py trim_segment) with its pointer-action trace. -/

/-- An external pointer action issued through utils/input.py. -/
inductive PtrAction
  | clickA (p : Pos)
  | dragA (a b : Pos)
deriving DecidableEq, Repr

/-- The click settings and the cancellation flag as the planner
observes them. -/
structure PlanCfg where
  clickEnabled : Bool
  clickCrossEnabled : Bool
  stopFlag : Bool
deriving DecidableEq, Repr

/-- Solver.toggle_cell: toggle the state, and click on screen exactly
when clicking is requested, enabled, and the stop flag is not set. -/
def toggleCellT (cfg : PlanCfg) (click : Bool) (b : BoardM) (p : Pos) :
    BoardM × List PtrAction :=
  (toggleAt b p,
   if click && cfg.clickEnabled && !cfg.stopFlag then [.clickA p] else [])

/-- Solver.set_cell_cross with its pointer-action trace. -/
def setCellCrossT (cfg : PlanCfg) (click : Bool) :
    Nat → BoardM → Pos → Option (BoardM × List PtrAction)
  | 0, b, p => if stateAt b p = .cross then some (b, []) else none
  | k + 1, b, p =>
    if stateAt b p = .cross then some (b, [])
    else
      let ba := toggleCellT cfg click b p
      (setCellCrossT cfg click k ba.1 p).map (fun r => (r.1, ba.2 ++ r.2))

/-- Solver.click_and_drag_cells: toggle every cell without clicking,
then issue one drag from the first to the last cell.  The drag is
issued unconditionally - there is no stop-flag or click-enabled check
on this path. -/
def clickAndDragCellsT (_cfg : PlanCfg) (b : BoardM) (cells : List Pos) :
    Option (BoardM × List PtrAction) :=
  match cells with
  | [] => none
  | c :: rest =>
    some ((c :: rest).foldl toggleAt b, [.dragA c (((c :: rest).getLast?).getD c)])

/-- A row or column key of the planner's line-count dictionary. -/
abbrev LineKey := Bool × Nat

/-- Cells of a planner line. -/
def lineKeyCells (n : Nat) : LineKey → List Pos
  | (true, r) => rowCellsIdx n r
  | (false, c) => colCellsIdx n c

/-- Increment of a key of the insertion-ordered count dictionary. -/
def bumpKey (k : LineKey) : List (LineKey × Nat) → List (LineKey × Nat)
  | [] => [(k, 1)]
  | e :: rest => if e.1 = k then (e.1, e.2 + 1) :: rest else e :: bumpKey k rest

/-- The lines dictionary of cross_cells_path: for each target cell its
row is counted, then its column. -/
def countLines (targets : List Pos) : List (LineKey × Nat) :=
  targets.foldl (fun acc p => bumpKey (false, p.2) (bumpKey (true, p.1) acc)) []

/-- Stable insertion keeping larger keys first: a later element is
placed after every earlier element of greater or equal key, which is
python's stable sorted(..., reverse=True). -/
def insertDescBy (f : α → Nat) (x : α) : List α → List α
  | [] => [x]
  | y :: ys => if f x ≤ f y then y :: insertDescBy f x ys else x :: y :: ys

/-- Stable descending sort by a numeric key. -/
def sortDescBy (f : α → Nat) (l : List α) : List α :=
  l.foldl (fun acc x => insertDescBy f x acc) []

/-- The segment-building walk of Line.make_line_segments: consecutive
cells that are targets or already non-empty form a segment; an empty
non-target cell closes the current segment. -/
def splitSegsAux (keep : Pos → Bool) : List Pos → List Pos → List (List Pos)
  | seg, [] => if seg.isEmpty then [] else [seg.reverse]
  | seg, c :: cs =>
    if keep c then splitSegsAux keep (c :: seg) cs
    else if seg.isEmpty then splitSegsAux keep [] cs
    else seg.reverse :: splitSegsAux keep [] cs

/-- trim_segment of src/board/line.py: non-empty cells are dropped from
both ends of a segment. -/
def trimSeg (emptyAt : Pos → Bool) (seg : List Pos) : List Pos :=
  ((seg.dropWhile (fun p => !emptyAt p)).reverse.dropWhile
    (fun p => !emptyAt p)).reverse

/-- Line.make_line_segments: validate membership, filter the targets to
empty cells, walk the line, trim each segment, and drop the empty
ones. -/
def makeLineSegments (b : BoardM) (lineCells : List Pos)
    (cellsToCross : List Pos) : Option (List (List Pos)) :=
  if cellsToCross.all (· ∈ lineCells) then
    let targets := cellsToCross.filter (fun p => stateAt b p = .empty)
    let keep := fun c => decide (c ∈ targets) || !(decide (stateAt b c = .empty))
    some (((splitSegsAux keep [] lineCells).map
      (trimSeg (fun p => decide (stateAt b p = .empty)))).filter (· ≠ []))
  else none

/-- Collection of the segments of every line in order (the extend loop
of cross_cells_path). -/
def collectSegments (b : BoardM) (n : Nat) (targets : List Pos) :
    List (LineKey × Nat) → Option (List (List Pos))
  | [] => some []
  | e :: rest => do
    let segs1 ← makeLineSegments b (lineKeyCells n e.1)
      (targets.filter (· ∈ lineKeyCells n e.1))
    let rest2 ← collectSegments b n targets rest
    pure (segs1 ++ rest2)

/-- One pass of segment collection in cross_cells_path: lines in stable
descending count order, their segments concatenated, then stably sorted
by length, largest first. -/
def planSegments (b : BoardM) (n : Nat) (targets : List Pos) :
    Option (List (List Pos)) :=
  (collectSegments b n targets (sortDescBy (fun e => e.2) (countLines targets))).map
    (sortDescBy List.length)

/-- list.remove: drop the first occurrence, or fail when absent. -/
def removeOne? (l : List Pos) (c : Pos) : Option (List Pos) :=
  if c ∈ l then some (l.erase c) else none

/-- Removal of every cell of a committed segment from the target list
(the final for-loop of a cross_cells_path iteration). -/
def removeAll? : List Pos → List Pos → Option (List Pos)
  | l, [] => some l
  | l, c :: cs => (removeOne? l c).bind (fun l' => removeAll? l' cs)

/-- One iteration of the cross_cells_path while loop: collect and sort
segments, pop the largest, commit it by drag or click, and remove its
cells from the target list. -/
def planStep (cfg : PlanCfg) (n : Nat) (b : BoardM) (targets : List Pos) :
    Option (BoardM × List Pos × List Pos × List PtrAction) := do
  let segs ← planSegments b n targets
  match segs with
  | [] => none
  | seg :: _ => do
    let ba ←
      if 1 < seg.length then clickAndDragCellsT cfg b seg
      else if seg.length == 1 then
        setCellCrossT cfg cfg.clickCrossEnabled 2 b (seg.headD (0, 0))
      else pure (b, [])
    let targets' ← removeAll? targets seg
    pure (ba.1, targets', seg, ba.2)

/-- The while loop of cross_cells_path, fuel-indexed: each iteration
removes at least one target, so the initial target count is enough
fuel. -/
def planLoop (cfg : PlanCfg) (n : Nat) :
    Nat → BoardM → List Pos → List (List Pos) → List PtrAction →
    Option (BoardM × List (List Pos) × List PtrAction)
  | _, b, [], segAcc, actAcc => some (b, segAcc, actAcc)
  | 0, _, _ :: _, _, _ => none
  | fuel + 1, b, t :: ts, segAcc, actAcc => do
    let r ← planStep cfg n b (t :: ts)
    planLoop cfg n fuel r.1 r.2.1 (segAcc ++ [r.2.2.1]) (actAcc ++ r.2.2.2)

/-- Crossing every cell one by one (the no-clicking branch of
cross_cells_path). -/
def crossCellsListT (cfg : PlanCfg) : BoardM → List Pos →
    Option (BoardM × List PtrAction)
  | b, [] => some (b, [])
  | b, p :: ps => do
    let ba ← setCellCrossT cfg cfg.clickCrossEnabled 2 b p
    let r ← crossCellsListT cfg ba.1 ps
    pure (r.1, ba.2 ++ r.2)

/-- Solver.cross_cells_path: filter the input to empty cells; when
clicking is disabled only the states change (no segments are
committed); otherwise run the batching loop.  The result carries the
final board, the committed segments, and the pointer-action trace. -/
def crossCellsPath (cfg : PlanCfg) (n : Nat) (b : BoardM)
    (cells0 : List Pos) : Option (BoardM × List (List Pos) × List PtrAction) :=
  let cells := cells0.filter (fun p => stateAt b p = .empty)
  if !(cfg.clickEnabled && cfg.clickCrossEnabled) then
    (crossCellsListT cfg b cells).map (fun r => (r.1, [], r.2))
  else planLoop cfg n cells.length b cells [] []

/-- A contiguous run inside a list: seg occurs as consecutive elements
of lc. -/
def ContigIn (seg lc : List Pos) : Prop :=
  ∃ l r, lc = l ++ seg ++ r

/-! Concrete boards used by witnesses, counterexamples and failing
inputs. -/

/-- Helper building a board from a color matrix and a list of initially
crossed positions (screen geometry is irrelevant to these claims). -/
def mkBoard (colors : List (List Nat)) (crossed : List Pos) : BoardM :=
  colors.enum.map (fun ir => ir.2.enum.map (fun jk =>
    { x := 0, y := 0, size := 0, color := some jk.2,
      state := if (ir.1, jk.1) ∈ crossed then CellState.cross
               else CellState.empty }))

/-- A 3x3 board whose middle top cell is already crossed: the planner's
largest segment for targets (0,0) and (0,2) spans the crossed (0,1). -/
def b3gap : BoardM :=
  mkBoard [[0, 0, 0], [1, 1, 1], [2, 2, 2]] [(0, 1)]

/-- A 2x2 all-empty board. -/
def b2 : BoardM :=
  mkBoard [[0, 0], [1, 1]] []

/-- A 1x1 all-empty board. -/
def b1 : BoardM :=
  mkBoard [[0]] []

/-- A 5x5 board on which exactly the regions 0 and 1 touch exactly the
rows {0, 1}, every other region touches more than two rows, and the
column pass of rule five proposes nothing. -/
def b5w : BoardM :=
  mkBoard
    [[0, 0, 2, 1, 1],
     [0, 0, 2, 1, 1],
     [3, 3, 2, 4, 4],
     [3, 3, 2, 4, 4],
     [3, 3, 2, 4, 4]] []

/-- A 5x5 board on which regions 0 and 1 touch exactly the rows {0, 1}
(and no other region has that line set), yet rule five's search matches
the unrelated group {2, 4} first. -/
def b5cex : BoardM :=
  mkBoard
    [[2, 0, 0, 1, 1],
     [0, 0, 0, 1, 1],
     [2, 4, 3, 3, 3],
     [3, 4, 2, 2, 2],
     [0, 0, 1, 1, 2]]
    [(0, 0), (2, 2), (2, 3), (2, 4), (3, 2), (3, 3), (3, 4),
     (4, 0), (4, 1), (4, 2), (4, 3), (4, 4)]

/-! Claim statements quoted from the spec, used to exhibit
counterexamples (these two follow the spec's words, not the code). -/

/-- The Action Planner claim as the spec states it: for every set of
Unresolved cells handed to the planner (clicking enabled), the run
completes, the committed segments' cells are exactly the input set with
each cell in exactly one segment, and every multi-cell segment is a
contiguous run of one line. -/
def PlannerClaim : Prop :=
  ∀ (cfg : PlanCfg) (n : Nat) (b : BoardM) (targets : List Pos),
    Square b n → targets.Nodup →
    (∀ p ∈ targets, p.1 < n ∧ p.2 < n ∧ stateAt b p = .empty) →
    cfg.clickEnabled = true → cfg.clickCrossEnabled = true →
    ∃ b' segs acts, crossCellsPath cfg n b targets = some (b', segs, acts) ∧
      (segs.flatMap id).Perm targets ∧
      ∀ s ∈ segs, 1 < s.length → ∃ k : LineKey, ContigIn s (lineKeyCells n k)

/-- The pairing-rule claim as the spec states it: whenever exactly k
regions' unresolved cells touch exactly the same k-line set, rule
five's proposed exclusions are exactly the unresolved cells of those
lines belonging to regions outside the group. -/
def RuleFiveClaim : Prop :=
  ∀ (b : BoardM) (n k : Nat) (isRow : Bool) (G L : List Nat),
    Square b n → 2 ≤ k → k ≤ (areaCount b n + 1) / 2 →
    G.Nodup → G.length = k → (∀ g ∈ G, g ∈ colorsInOrder b n) →
    L.Nodup → L.length = k →
    (∀ g ∈ G, (linesOfEmpty b n isRow g).toFinset = L.toFinset) →
    (∀ c ∈ colorsInOrder b n, c ∉ G →
      (linesOfEmpty b n isRow c).toFinset ≠ L.toFinset) →
    ∀ p : Pos, p ∈ ruleFive b n ↔
      (p.1 < n ∧ p.2 < n ∧ lineOf isRow p ∈ L ∧ stateAt b p = .empty ∧
        ¬ colorAt b p ∈ G.map some)

/-- The guess-commit claim as the spec states it: on every invocation,
a validated guess is followed by a real crown at the guess cell plus
its exclusion set, and a failed guess by a real cross of the guess
cell. -/
def ApplyGuessClaim : Prop :=
  ∀ (f : SolverSt → SolverSt) (n : Nat) (st : SolverSt) (t : Pos)
    (found : Bool) (simCrowns : Nat) (st' stF : SolverSt),
    guessRun f n st t = some (found, simCrowns, st') →
    applyGuess f n st t = some stF →
    (found = true ↔ simCrowns = areaCount st.board n) ∧
    (found = true → stateAt stF.board t = .crown ∧
      ∀ q ∈ getCrossesFromCrown st'.board n t, stateAt stF.board q = .cross) ∧
    (found = false → stateAt stF.board t = .cross)

/-- Pointwise static agreement of two optional cells (proof
infrastructure for StaticEq). -/
def staticRel : Option Cell → Option Cell → Prop
  | none, none => True
  | some c', some c => Cell.staticEq c' c
  | _, _ => False

/-- A list of four cells (witness input for board construction). -/
def cells4 : List Cell :=
  List.replicate 4 { x := 0, y := 0, size := 0, color := some 0, state := .empty }

/-- A list of three cells (failing input for board construction). -/
def cells3 : List Cell :=
  List.replicate 3 { x := 0, y := 0, size := 0, color := some 0, state := .empty }

end Crowns

namespace Crowns

/-! ## Lemmas about the cell matrix -/

theorem rowCellAt?_setRowState_self (row : List Cell) (j : Nat) (s : CellState) :
    rowCellAt? (setRowState row j s) j =
      (rowCellAt? row j).map (fun c => { c with state := s }) := by
  induction row generalizing j with
  | nil => cases j <;> simp [rowCellAt?, setRowState]
  | cons c t ih =>
    cases j with
    | zero => simp [rowCellAt?, setRowState]
    | succ j => simpa [rowCellAt?, setRowState] using ih j

theorem rowCellAt?_setRowState_ne (row : List Cell) {j j' : Nat} (h : j' ≠ j)
    (s : CellState) :
    rowCellAt? (setRowState row j s) j' = rowCellAt? row j' := by
  induction row generalizing j j' with
  | nil => simp [setRowState]
  | cons c t ih =>
    cases j with
    | zero =>
      cases j' with
      | zero => exact absurd rfl h
      | succ j' => simp [rowCellAt?, setRowState]
    | succ j =>
      cases j' with
      | zero => simp [rowCellAt?, setRowState]
      | succ j' => simpa [rowCellAt?, setRowState] using ih (by omega)

theorem cellAt?_setStateAt_self (b : BoardM) (p : Pos) (s : CellState) :
    cellAt? (setStateAt b p s) p =
      (cellAt? b p).map (fun c => { c with state := s }) := by
  obtain ⟨i, j⟩ := p
  induction b generalizing i with
  | nil => simp [setStateAt, cellAt?]
  | cons row b ih =>
    cases i with
    | zero => simp [setStateAt, cellAt?, rowCellAt?_setRowState_self]
    | succ i => simpa [setStateAt, cellAt?] using ih i

theorem cellAt?_setStateAt_ne (b : BoardM) {p q : Pos} (h : q ≠ p)
    (s : CellState) :
    cellAt? (setStateAt b p s) q = cellAt? b q := by
  obtain ⟨i, j⟩ := p
  obtain ⟨i', j'⟩ := q
  induction b generalizing i i' with
  | nil => simp [setStateAt]
  | cons row b ih =>
    cases i with
    | zero =>
      cases i' with
      | zero =>
        have hj : j' ≠ j := by
          intro hh
          exact h (by simp [hh])
        simp [setStateAt, cellAt?, rowCellAt?_setRowState_ne row hj]
      | succ i' => simp [setStateAt, cellAt?]
    | succ i =>
      cases i' with
      | zero => simp [setStateAt, cellAt?]
      | succ i' =>
        have h' : ((i' : Nat), j') ≠ ((i : Nat), j) := by
          intro hh
          rw [Prod.mk.injEq] at hh
          exact h (by simp [hh.1, hh.2])
        simpa [setStateAt, cellAt?] using ih i i' h'

theorem stateAt_eq_of_cellAt?_eq {b b' : BoardM} {q : Pos}
    (h : cellAt? b' q = cellAt? b q) : stateAt b' q = stateAt b q := by
  simp [stateAt, h]

theorem stateAt_setStateAt_self {b : BoardM} {p : Pos} (h : inBounds b p)
    (s : CellState) : stateAt (setStateAt b p s) p = s := by
  unfold inBounds at h
  obtain ⟨c, hc⟩ := Option.isSome_iff_exists.mp h
  simp [stateAt, cellAt?_setStateAt_self, hc]

theorem stateAt_setStateAt_ne {b : BoardM} {p q : Pos} (h : q ≠ p)
    (s : CellState) : stateAt (setStateAt b p s) q = stateAt b q :=
  stateAt_eq_of_cellAt?_eq (cellAt?_setStateAt_ne b h s)

theorem colorAt_setStateAt (b : BoardM) (p : Pos) (s : CellState) (q : Pos) :
    colorAt (setStateAt b p s) q = colorAt b q := by
  by_cases h : q = p
  · subst h
    simp only [colorAt, cellAt?_setStateAt_self]
    cases cellAt? b q <;> simp
  · simp [colorAt, cellAt?_setStateAt_ne b h]

theorem inBounds_setStateAt (b : BoardM) (p : Pos) (s : CellState) (q : Pos) :
    inBounds (setStateAt b p s) q ↔ inBounds b q := by
  by_cases h : q = p
  · subst h
    simp only [inBounds, cellAt?_setStateAt_self]
    cases cellAt? b q <;> simp
  · simp [inBounds, cellAt?_setStateAt_ne b h]

theorem stateAt_toggleAt_self {b : BoardM} {p : Pos} (h : inBounds b p) :
    stateAt (toggleAt b p) p = (stateAt b p).toggle := by
  simp [toggleAt, stateAt_setStateAt_self h]

theorem cellAt?_toggleAt_ne {b : BoardM} {p q : Pos} (h : q ≠ p) :
    cellAt? (toggleAt b p) q = cellAt? b q :=
  cellAt?_setStateAt_ne b h _

theorem inBounds_toggleAt (b : BoardM) (p q : Pos) :
    inBounds (toggleAt b p) q ↔ inBounds b q :=
  inBounds_setStateAt b p _ q

/-! ## Static equality -/

theorem Cell.staticEq_refl (c : Cell) : Cell.staticEq c c :=
  ⟨rfl, rfl, rfl, rfl⟩

theorem Cell.staticEq_trans {a b c : Cell} (h1 : Cell.staticEq a b)
    (h2 : Cell.staticEq b c) : Cell.staticEq a c := by
  obtain ⟨x1, y1, s1, c1⟩ := h1
  obtain ⟨x2, y2, s2, c2⟩ := h2
  exact ⟨x1.trans x2, y1.trans y2, s1.trans s2, c1.trans c2⟩

theorem forall₂_staticEq_refl (l : List Cell) :
    List.Forall₂ Cell.staticEq l l :=
  List.forall₂_same.mpr (fun c _ => Cell.staticEq_refl c)

theorem forall₂_staticEq_trans {l1 l2 l3 : List Cell}
    (h1 : List.Forall₂ Cell.staticEq l1 l2)
    (h2 : List.Forall₂ Cell.staticEq l2 l3) :
    List.Forall₂ Cell.staticEq l1 l3 := by
  induction h1 generalizing l3 with
  | nil => cases h2; exact List.Forall₂.nil
  | cons hc _ ih =>
    cases h2 with
    | cons hc' hrest' => exact List.Forall₂.cons (Cell.staticEq_trans hc hc') (ih hrest')

theorem StaticEq.refl (b : BoardM) : StaticEq b b :=
  List.forall₂_same.mpr (fun row _ => forall₂_staticEq_refl row)

theorem StaticEq.trans {b1 b2 b3 : BoardM} (h1 : StaticEq b1 b2)
    (h2 : StaticEq b2 b3) : StaticEq b1 b3 := by
  induction h1 generalizing b3 with
  | nil => cases h2; exact List.Forall₂.nil
  | cons hr _ ih =>
    cases h2 with
    | cons hr' hrest' => exact List.Forall₂.cons (forall₂_staticEq_trans hr hr') (ih hrest')

theorem staticEq_setRowState (row : List Cell) (j : Nat) (s : CellState) :
    List.Forall₂ Cell.staticEq (setRowState row j s) row := by
  induction row generalizing j with
  | nil => simp [setRowState]
  | cons c t ih =>
    cases j with
    | zero =>
      exact List.Forall₂.cons ⟨rfl, rfl, rfl, rfl⟩ (forall₂_staticEq_refl t)
    | succ j =>
      exact List.Forall₂.cons (Cell.staticEq_refl c) (ih j)

theorem staticEq_setStateAt (b : BoardM) (p : Pos) (s : CellState) :
    StaticEq (setStateAt b p s) b := by
  obtain ⟨i, j⟩ := p
  induction b generalizing i with
  | nil => simp [setStateAt, StaticEq]
  | cons row b ih =>
    cases i with
    | zero =>
      exact List.Forall₂.cons (staticEq_setRowState row j s) (StaticEq.refl b)
    | succ i =>
      exact List.Forall₂.cons (forall₂_staticEq_refl row) (ih i)

theorem staticEq_toggleAt (b : BoardM) (p : Pos) : StaticEq (toggleAt b p) b :=
  staticEq_setStateAt b p _

theorem staticEq_applyWrites (ws : List (Pos × CellState)) (b : BoardM) :
    StaticEq (applyWrites ws b) b := by
  induction ws generalizing b with
  | nil => exact StaticEq.refl b
  | cons w ws ih =>
    have h1 : applyWrites (w :: ws) b = applyWrites ws (setStateAt b w.1 w.2) := rfl
    rw [h1]
    exact (ih (setStateAt b w.1 w.2)).trans (staticEq_setStateAt b w.1 w.2)

theorem loadRow_staticEq {row' row : List Cell}
    (h : List.Forall₂ Cell.staticEq row' row) :
    loadRow row' (row.map Cell.state) = some row := by
  induction h with
  | nil => simp [loadRow]
  | cons hc hrest ih =>
    rename_i a' a t' t
    obtain ⟨h1, h2, h3, h4⟩ := hc
    have hcell : { a' with state := a.state } = a := by
      cases a'
      cases a
      simp_all
    simp [loadRow, ih, hcell]

theorem loadState_staticEq {b' b : BoardM} (h : StaticEq b' b) :
    loadState b' (saveState b) = some b := by
  induction h with
  | nil => simp [loadState, saveState]
  | cons hr hrest ih =>
    rename_i row' row t' t
    simp only [saveState] at ih ⊢
    simp [loadState, loadRow_staticEq hr, ih]

/-- C9: a snapshot taken before an arbitrary sequence of cell-state
mutations restores, on load, every cell (in particular every marking
state) to its value at the moment the snapshot was taken; with the
empty sequence this says an immediate restore changes nothing. -/
theorem c9_snapshot_roundtrip (b : BoardM) (ws : List (Pos × CellState)) :
    loadState (applyWrites ws b) (saveState b) = some b :=
  loadState_staticEq (staticEq_applyWrites ws b)


/-! ## The set_cell_cross / set_cell_crown while loops -/

theorem setCellCrossS_some_props : ∀ (k : Nat) (b : BoardM) (p : Pos)
    (b' : BoardM), setCellCrossS k b p = some b' →
    stateAt b' p = .cross ∧ (∀ q, q ≠ p → cellAt? b' q = cellAt? b q) ∧
      StaticEq b' b := by
  intro k
  induction k with
  | zero =>
    intro b p b' h
    unfold setCellCrossS at h
    split at h
    · rename_i hc
      cases h
      exact ⟨hc, fun q _ => rfl, StaticEq.refl b⟩
    · cases h
  | succ k ih =>
    intro b p b' h
    unfold setCellCrossS at h
    split at h
    · rename_i hc
      cases h
      exact ⟨hc, fun q _ => rfl, StaticEq.refl b⟩
    · obtain ⟨h1, h2, h3⟩ := ih (toggleAt b p) p b' h
      exact ⟨h1,
        fun q hq => (h2 q hq).trans (cellAt?_toggleAt_ne hq),
        h3.trans (staticEq_toggleAt b p)⟩

theorem setCellCrownS_some_props : ∀ (k : Nat) (b : BoardM) (p : Pos)
    (b' : BoardM), setCellCrownS k b p = some b' →
    stateAt b' p = .crown ∧ (∀ q, q ≠ p → cellAt? b' q = cellAt? b q) ∧
      StaticEq b' b := by
  intro k
  induction k with
  | zero =>
    intro b p b' h
    unfold setCellCrownS at h
    split at h
    · rename_i hc
      cases h
      exact ⟨hc, fun q _ => rfl, StaticEq.refl b⟩
    · cases h
  | succ k ih =>
    intro b p b' h
    unfold setCellCrownS at h
    split at h
    · rename_i hc
      cases h
      exact ⟨hc, fun q _ => rfl, StaticEq.refl b⟩
    · obtain ⟨h1, h2, h3⟩ := ih (toggleAt b p) p b' h
      exact ⟨h1,
        fun q hq => (h2 q hq).trans (cellAt?_toggleAt_ne hq),
        h3.trans (staticEq_toggleAt b p)⟩

theorem setCellCrossS_two_some {b : BoardM} {p : Pos} (h : inBounds b p) :
    ∃ b', setCellCrossS 2 b p = some b' := by
  have ht1 : stateAt (toggleAt b p) p = (stateAt b p).toggle :=
    stateAt_toggleAt_self h
  have hb1 : inBounds (toggleAt b p) p := (inBounds_toggleAt b p p).mpr h
  have ht2 : stateAt (toggleAt (toggleAt b p) p) p =
      (stateAt b p).toggle.toggle := by
    rw [stateAt_toggleAt_self hb1, ht1]
  cases hs : stateAt b p with
  | empty =>
    refine ⟨toggleAt b p, ?_⟩
    simp [setCellCrossS, hs, ht1, CellState.toggle]
  | cross => exact ⟨b, by simp [setCellCrossS, hs]⟩
  | crown =>
    refine ⟨toggleAt (toggleAt b p) p, ?_⟩
    simp [setCellCrossS, hs, ht1, ht2, CellState.toggle]

theorem setCellCrownS_two_some {b : BoardM} {p : Pos} (h : inBounds b p) :
    ∃ b', setCellCrownS 2 b p = some b' := by
  have ht1 : stateAt (toggleAt b p) p = (stateAt b p).toggle :=
    stateAt_toggleAt_self h
  have hb1 : inBounds (toggleAt b p) p := (inBounds_toggleAt b p p).mpr h
  have ht2 : stateAt (toggleAt (toggleAt b p) p) p =
      (stateAt b p).toggle.toggle := by
    rw [stateAt_toggleAt_self hb1, ht1]
  cases hs : stateAt b p with
  | crown => exact ⟨b, by simp [setCellCrownS, hs]⟩
  | cross =>
    refine ⟨toggleAt b p, ?_⟩
    simp [setCellCrownS, hs, ht1, CellState.toggle]
  | empty =>
    refine ⟨toggleAt (toggleAt b p) p, ?_⟩
    simp [setCellCrownS, hs, ht1, ht2, CellState.toggle]

/-- C10: from any of the three cell states, the set-to-cross loop
terminates within two toggle steps with the cell crossed, and the
set-to-crown operation terminates within two toggle steps with the
cell crowned and the solver's crown counter incremented by exactly
one. -/
theorem c10_toggle_loops (b : BoardM) (p : Pos) (st : SolverSt)
    (hb : inBounds b p) (hst : st.board = b) :
    (∃ b', setCellCrossS 2 b p = some b' ∧ stateAt b' p = .cross) ∧
    (∃ st', crownCellSt st p = some st' ∧ stateAt st'.board p = .crown ∧
      st'.crowns = st.crowns + 1) := by
  constructor
  · obtain ⟨b', hb'⟩ := setCellCrossS_two_some hb
    exact ⟨b', hb', (setCellCrossS_some_props 2 b p b' hb').1⟩
  · obtain ⟨b', hb'⟩ := setCellCrownS_two_some (show inBounds st.board p from hst ▸ hb)
    refine ⟨{ st with board := b', crowns := st.crowns + 1 }, ?_, ?_, rfl⟩
    · simp [crownCellSt, hb']
    · exact (setCellCrownS_some_props 2 st.board p b' hb').1

/-- Witness for C10 on a concrete 2x2 board. -/
theorem c10_toggle_loops_witness :
    (∃ b', setCellCrossS 2 b2 (0, 0) = some b' ∧ stateAt b' (0, 0) = .cross) ∧
    (∃ st', crownCellSt ⟨b2, 0, false, true, false⟩ (0, 0) = some st' ∧
      stateAt st'.board (0, 0) = .crown ∧ st'.crowns = 0 + 1) :=
  c10_toggle_loops b2 (0, 0) ⟨b2, 0, false, true, false⟩ (by decide) rfl

/-! ## Board construction -/

theorem c8_aux_row_len {cells : List Cell} {i : Nat}
    (hsq : Nat.sqrt cells.length ^ 2 = cells.length)
    (hi : i < Nat.sqrt cells.length) :
    ((cells.drop (i * Nat.sqrt cells.length)).take
      (Nat.sqrt cells.length)).length = Nat.sqrt cells.length := by
  have hmul : (i + 1) * Nat.sqrt cells.length ≤
      Nat.sqrt cells.length * Nat.sqrt cells.length :=
    Nat.mul_le_mul_right _ (by omega)
  have hsucc : (i + 1) * Nat.sqrt cells.length =
      i * Nat.sqrt cells.length + Nat.sqrt cells.length := by ring
  have hpow : Nat.sqrt cells.length ^ 2 =
      Nat.sqrt cells.length * Nat.sqrt cells.length := by ring
  simp only [List.length_take, List.length_drop]
  omega

/-- C8: construction of a board from a list of cells fails exactly when
the cell count is not a perfect square, and on success the inferred
matrix has sqrt(count) rows of sqrt(count) cells each. -/
theorem c8_board_construction (cells : List Cell) :
    (isErr (boardInit cells) = true ↔
      Nat.sqrt cells.length ^ 2 ≠ cells.length) ∧
    (∀ m, boardInit cells = .ok m →
      m.length = Nat.sqrt cells.length ∧
      ∀ row ∈ m, row.length = Nat.sqrt cells.length) := by
  by_cases hps : Nat.sqrt cells.length ^ 2 = cells.length
  · have hb : boardInit cells = .ok (createCellMatrix cells) := by
      simp [boardInit, isPerfectSquare, hps]
    refine ⟨by simp [hb, isErr, hps], ?_⟩
    intro m hm
    rw [hb] at hm
    cases hm
    constructor
    · simp [createCellMatrix]
    · intro row hrow
      simp only [createCellMatrix, List.mem_map, List.mem_range] at hrow
      obtain ⟨i, hi, hrow⟩ := hrow
      rw [← hrow]
      exact c8_aux_row_len hps hi
  · have hb : boardInit cells = .error .shapeError := by
      simp [boardInit, isPerfectSquare, hps]
    refine ⟨by simp [hb, isErr, hps], ?_⟩
    intro m hm
    rw [hb] at hm
    cases hm

theorem sqrt_three : Nat.sqrt 3 = 1 :=
  (Nat.eq_sqrt'.mpr (by norm_num)).symm

theorem sqrt_four : Nat.sqrt 4 = 2 :=
  (Nat.eq_sqrt'.mpr (by norm_num)).symm

/-- Witness for C8: four cells build a 2x2 matrix, three cells are
rejected. -/
theorem c8_board_construction_witness :
    isErr (boardInit cells3) = true ∧
    (createCellMatrix cells4).length = Nat.sqrt cells4.length ∧
    ∀ row ∈ createCellMatrix cells4, row.length = Nat.sqrt cells4.length := by
  have h3 : cells3.length = 3 := by simp [cells3]
  have h4 : cells4.length = 4 := by simp [cells4]
  have hps4 : isPerfectSquare cells4.length = true := by
    simp [isPerfectSquare, h4, sqrt_four]
  refine ⟨(c8_board_construction cells3).1.mpr ?_, ?_⟩
  · rw [h3, sqrt_three]
    norm_num
  · exact (c8_board_construction cells4).2 (createCellMatrix cells4)
      (by simp [boardInit, hps4])


/-! ## The singleton check -/

/-- C7: for any member list (a Line's or an Area's cells),
check_empty_spot returns a cell exactly when the list holds no crowned
cell and its empty cells are exactly that one cell, and returns none in
every other case. -/
theorem c7_singleton_check (b : BoardM) (cells : List Pos) :
    (∀ c, checkEmptySpot b cells = some c ↔
      ((∀ q ∈ cells, stateAt b q ≠ .crown) ∧
        cells.filter (fun p => stateAt b p = .empty) = [c])) ∧
    (checkEmptySpot b cells = none ↔
      ¬ ((∀ q ∈ cells, stateAt b q ≠ .crown) ∧
        (cells.filter (fun p => stateAt b p = .empty)).length = 1)) := by
  have hcr : (cells.filter (fun p => stateAt b p = .crown)).isEmpty = true ↔
      ∀ q ∈ cells, stateAt b q ≠ .crown := by
    rw [List.isEmpty_iff, List.filter_eq_nil_iff]
    simp
  constructor
  · intro c
    unfold checkEmptySpot
    dsimp only
    split
    · rename_i hcond
      rw [Bool.and_eq_true, beq_iff_eq] at hcond
      cases hemp : cells.filter (fun p => stateAt b p = .empty) with
      | nil => rw [hemp] at hcond; simp at hcond
      | cons x t =>
        cases t with
        | nil =>
          simp only [List.head?]
          constructor
          · intro hx
            cases hx
            exact ⟨hcr.mp hcond.1, rfl⟩
          · intro ⟨_, hxc⟩
            cases hxc
            rfl
        | cons y t2 => rw [hemp] at hcond; simp at hcond
    · rename_i hcond
      rw [Bool.and_eq_true, beq_iff_eq] at hcond
      constructor
      · intro hx
        cases hx
      · intro ⟨h1, h2⟩
        exact absurd ⟨hcr.mpr h1, by rw [h2]; rfl⟩ hcond
  · unfold checkEmptySpot
    dsimp only
    split
    · rename_i hcond
      rw [Bool.and_eq_true, beq_iff_eq] at hcond
      cases hemp : cells.filter (fun p => stateAt b p = .empty) with
      | nil => rw [hemp] at hcond; simp at hcond
      | cons x t =>
        cases t with
        | nil =>
          simp only [List.head?]
          constructor
          · intro hx
            cases hx
          · intro hneg
            exact absurd ⟨hcr.mp hcond.1, by rw [← hemp]; exact hcond.2⟩ hneg
        | cons y t2 => rw [hemp] at hcond; simp at hcond
    · rename_i hcond
      rw [Bool.and_eq_true, beq_iff_eq] at hcond
      constructor
      · intro _ ⟨h1, h2⟩
        exact absurd ⟨hcr.mpr h1, h2⟩ hcond
      · intro _
        rfl

/-- Witness for C7 on concrete lists: the lone empty cell of a
one-empty-cell row is returned, while an all-empty two-cell row gives
none. -/
theorem c7_singleton_check_witness :
    checkEmptySpot b3gap [(0, 0), (0, 1)] = some (0, 0) ∧
    checkEmptySpot b2 [(0, 0), (0, 1)] = none := by
  constructor
  · exact ((c7_singleton_check b3gap [(0, 0), (0, 1)]).1 (0, 0)).mpr
      ⟨by decide, by decide⟩
  · exact (c7_singleton_check b2 [(0, 0), (0, 1)]).2.mpr (by decide)



/-! ## Membership characterizations for lines, areas, neighborhoods -/

theorem mem_rowCellsIdx {n r : Nat} {q : Pos} :
    q ∈ rowCellsIdx n r ↔ q.1 = r ∧ q.2 < n := by
  obtain ⟨a, c⟩ := q
  simp only [rowCellsIdx, List.mem_map, List.mem_range]
  constructor
  · rintro ⟨j, hj, hje⟩
    cases hje
    exact ⟨rfl, hj⟩
  · rintro ⟨h1, h2⟩
    cases h1
    exact ⟨c, h2, rfl⟩

theorem mem_colCellsIdx {n c : Nat} {q : Pos} :
    q ∈ colCellsIdx n c ↔ q.2 = c ∧ q.1 < n := by
  obtain ⟨a, d⟩ := q
  simp only [colCellsIdx, List.mem_map, List.mem_range]
  constructor
  · rintro ⟨i, hi, hie⟩
    cases hie
    exact ⟨rfl, hi⟩
  · rintro ⟨h1, h2⟩
    cases h1
    exact ⟨a, h2, rfl⟩

theorem nodup_rowCellsIdx {n r : Nat} : (rowCellsIdx n r).Nodup :=
  (List.nodup_range _).map (by intro x y h; simpa using h)

theorem nodup_colCellsIdx {n c : Nat} : (colCellsIdx n c).Nodup :=
  (List.nodup_range _).map (by intro x y h; simpa using h)

theorem areaRowScan_fst {b : BoardM} {k i n : Nat} {q : Pos}
    (h : q ∈ areaRowScan b k i n) : q.1 = i := by
  simp only [areaRowScan, List.mem_filterMap, List.mem_range] at h
  obtain ⟨j, _, hj⟩ := h
  split at hj
  · cases hj
    rfl
  · cases hj

theorem mem_areaCells {b : BoardM} {n k : Nat} {q : Pos} :
    q ∈ areaCells b n k ↔ q.1 < n ∧ q.2 < n ∧ colorAt b q = some k := by
  obtain ⟨a, c⟩ := q
  simp only [areaCells, areaRowScan, List.mem_flatMap, List.mem_filterMap,
    List.mem_range]
  constructor
  · rintro ⟨i, hi, j, hj, hcond⟩
    split at hcond
    · rename_i hcol
      cases hcond
      exact ⟨hi, hj, hcol⟩
    · cases hcond
  · rintro ⟨h1, h2, h3⟩
    exact ⟨a, h1, c, h2, by simp [h3]⟩

theorem nodup_areaCells {b : BoardM} {n k : Nat} : (areaCells b n k).Nodup := by
  unfold areaCells
  rw [List.nodup_flatMap]
  constructor
  · intro i _
    refine List.Nodup.filterMap ?_ (List.nodup_range _)
    intro j1 j2 q hq1 hq2
    rw [Option.mem_def] at hq1 hq2
    split at hq1
    · split at hq2
      · cases hq1
        injection hq2 with hq2
        injection hq2 with _ h
        exact h.symm
      · cases hq2
    · cases hq1
  · refine (List.pairwise_lt_range _).imp ?_
    intro i1 i2 h12 q hq1 hq2
    exact absurd ((areaRowScan_fst hq1).symm.trans (areaRowScan_fst hq2))
      (Nat.ne_of_lt h12)

theorem surroundRowScan_spec {n : Nat} {p : Pos} {di : Int} {q : Pos}
    (h : q ∈ surroundRowScan n p di) :
    0 ≤ (p.1 : Int) + di ∧ ((p.1 : Int) + di).toNat = q.1 := by
  simp only [surroundRowScan, List.mem_filterMap] at h
  obtain ⟨dj, _, hj⟩ := h
  split at hj
  · rename_i hc
    cases hj
    exact ⟨hc.1, rfl⟩
  · cases hj

theorem mem_offsets {d : Int} : d ∈ ([-1, 0, 1] : List Int) ↔ -1 ≤ d ∧ d ≤ 1 := by
  constructor
  · intro h
    rcases h with _ | ⟨_, h⟩
    · omega
    · rcases h with _ | ⟨_, h⟩
      · omega
      · rcases h with _ | ⟨_, h⟩
        · omega
        · cases h
  · intro h
    have hd : d = -1 ∨ d = 0 ∨ d = 1 := by omega
    rcases hd with rfl | rfl | rfl <;> simp

theorem mem_surroundCand {n : Nat} {p q : Pos} :
    q ∈ surroundCand n p ↔ q.1 < n ∧ q.2 < n ∧ kingAdj p q := by
  obtain ⟨a, c⟩ := q
  simp only [surroundCand, surroundRowScan, List.mem_flatMap, List.mem_filterMap]
  constructor
  · rintro ⟨di, hdi, dj, hdj, hcond⟩
    rw [mem_offsets] at hdi hdj
    split at hcond
    · rename_i hc
      obtain ⟨h1, h2, h3, h4⟩ := hc
      injection hcond with hcond
      rw [Prod.mk.injEq] at hcond
      obtain ⟨ha, hc2⟩ := hcond
      unfold kingAdj
      dsimp only
      omega
    · cases hcond
  · rintro ⟨h1, h2, hk⟩
    obtain ⟨k1, k2, k3, k4⟩ := hk
    dsimp only at k1 k2 k3 k4
    refine ⟨(a : Int) - p.1, mem_offsets.mpr (by omega),
      (c : Int) - p.2, mem_offsets.mpr (by omega), ?_⟩
    split
    · rename_i hc
      simp only [Option.some.injEq, Prod.mk.injEq]
      exact ⟨by omega, by omega⟩
    · rename_i hc
      exact absurd ⟨by omega, by omega, by omega, by omega⟩ hc

theorem nodup_surroundCand {n : Nat} {p : Pos} : (surroundCand n p).Nodup := by
  unfold surroundCand
  rw [List.nodup_flatMap]
  constructor
  · intro di _
    unfold surroundRowScan
    refine List.Nodup.filterMap ?_ (by decide)
    intro dj1 dj2 q hq1 hq2
    rw [Option.mem_def] at hq1 hq2
    dsimp only at hq1 hq2
    split at hq1
    · split at hq2
      · rename_i hc1 hc2
        injection hq1 with hq1
        injection hq2 with hq2
        rw [Prod.mk.injEq] at hq1 hq2
        have h1 := hq1.2
        have h2 := hq2.2
        omega
      · cases hq2
    · cases hq1
  · refine List.Pairwise.imp ?_ (by decide : ([-1, 0, 1] : List Int).Pairwise (· < ·))
    intro d1 d2 h12 q hq1 hq2
    obtain ⟨ha1, hb1⟩ := surroundRowScan_spec hq1
    obtain ⟨ha2, hb2⟩ := surroundRowScan_spec hq2
    omega

theorem mem_surroundingCells {n : Nat} {p q : Pos} :
    q ∈ surroundingCells n p ↔ q ≠ p ∧ q.1 < n ∧ q.2 < n ∧ kingAdj p q := by
  unfold surroundingCells
  rw [nodup_surroundCand.mem_erase_iff, mem_surroundCand]


/-! ## Pointwise consequences of static equality -/

theorem staticRel_rowCellAt? {row' row : List Cell}
    (h : List.Forall₂ Cell.staticEq row' row) (j : Nat) :
    staticRel (rowCellAt? row' j) (rowCellAt? row j) := by
  induction h generalizing j with
  | nil => simp [rowCellAt?, staticRel]
  | cons hc hrest ih =>
    cases j with
    | zero => simpa [rowCellAt?, staticRel] using hc
    | succ j => exact ih j

theorem staticRel_cellAt? {b' b : BoardM} (h : StaticEq b' b) (q : Pos) :
    staticRel (cellAt? b' q) (cellAt? b q) := by
  obtain ⟨i, j⟩ := q
  induction h generalizing i with
  | nil => simp [cellAt?, staticRel]
  | cons hr hrest ih =>
    cases i with
    | zero => simpa [cellAt?] using staticRel_rowCellAt? hr j
    | succ i => exact ih i

theorem inBounds_of_staticEq {b' b : BoardM} (h : StaticEq b' b) (q : Pos) :
    inBounds b' q ↔ inBounds b q := by
  have hrel := staticRel_cellAt? h q
  unfold inBounds
  cases h1 : cellAt? b' q <;> cases h2 : cellAt? b q <;>
    simp_all [staticRel]

theorem colorAt_of_staticEq {b' b : BoardM} (h : StaticEq b' b) (q : Pos) :
    colorAt b' q = colorAt b q := by
  have hrel := staticRel_cellAt? h q
  unfold colorAt
  cases h1 : cellAt? b' q <;> cases h2 : cellAt? b q <;>
    simp_all [staticRel, Cell.staticEq]

theorem staticEq_rows_length {b' b : BoardM} {n : Nat} (h : StaticEq b' b)
    (hn : ∀ row ∈ b, row.length = n) : ∀ row' ∈ b', row'.length = n := by
  induction h with
  | nil => simp
  | cons hr hrest ih =>
    intro r hr'
    rcases List.mem_cons.mp hr' with rfl | hmem
    · rw [List.Forall₂.length_eq hr]
      exact hn _ (List.mem_cons_self _ _)
    · exact ih (fun row hrow => hn row (List.mem_cons_of_mem _ hrow)) r hmem

theorem square_of_staticEq {b' b : BoardM} {n : Nat} (h : StaticEq b' b)
    (hs : Square b n) : Square b' n :=
  ⟨(List.Forall₂.length_eq h).trans hs.1, staticEq_rows_length h hs.2⟩

/-! ## Bounds -/

theorem rowCellAt?_isSome {row : List Cell} {j : Nat} :
    (rowCellAt? row j).isSome = true ↔ j < row.length := by
  induction row generalizing j with
  | nil => simp [rowCellAt?]
  | cons c t ih =>
    cases j with
    | zero => simp [rowCellAt?]
    | succ j => simpa [rowCellAt?] using ih

theorem inBounds_of_lt : ∀ (b : BoardM) (i j : Nat), i < b.length →
    (∀ row ∈ b, j < row.length) → inBounds b (i, j) := by
  intro b
  induction b with
  | nil =>
    intro i j hi _
    simp at hi
  | cons row t ih =>
    intro i j hi hrows
    cases i with
    | zero =>
      unfold inBounds cellAt?
      rw [rowCellAt?_isSome]
      exact hrows row (List.mem_cons_self _ _)
    | succ i =>
      have h := ih i j (by simpa using hi)
        (fun r hr => hrows r (List.mem_cons_of_mem _ hr))
      simpa [inBounds, cellAt?] using h

theorem inBounds_of_square {b : BoardM} {n : Nat} (h : Square b n) {q : Pos}
    (h1 : q.1 < n) (h2 : q.2 < n) : inBounds b q := by
  obtain ⟨i, j⟩ := q
  exact inBounds_of_lt b i j (by rw [h.1]; exact h1) (fun row hrow => by
    rw [h.2 row hrow]
    exact h2)

/-! ## Crossing a list of cells -/

theorem crossCellsS_some_props : ∀ (ps : List Pos) (b : BoardM),
    (∀ p ∈ ps, inBounds b p) →
    ∃ b₂, crossCellsS b ps = some b₂ ∧ StaticEq b₂ b ∧
      (∀ q, q ∉ ps → cellAt? b₂ q = cellAt? b q) ∧
      (ps.Nodup → ∀ q ∈ ps, stateAt b₂ q = .cross) := by
  intro ps
  induction ps with
  | nil =>
    intro b _
    exact ⟨b, rfl, StaticEq.refl b, fun q _ => rfl, by simp⟩
  | cons p ps ih =>
    intro b h
    obtain ⟨b', hb'⟩ := setCellCrossS_two_some (h p (List.mem_cons_self _ _))
    obtain ⟨hstate, hframe, hstatic⟩ := setCellCrossS_some_props 2 b p b' hb'
    have hinb : ∀ r ∈ ps, inBounds b' r := fun r hr =>
      (inBounds_of_staticEq hstatic r).mpr (h r (List.mem_cons_of_mem _ hr))
    obtain ⟨b₂, hb₂, hst2, hframe2, hmem2⟩ := ih b' hinb
    refine ⟨b₂, ?_, hst2.trans hstatic, ?_, ?_⟩
    · simp [crossCellsS, hb', hb₂]
    · intro q hq
      rw [List.mem_cons, not_or] at hq
      exact (hframe2 q hq.2).trans (hframe q hq.1)
    · intro hnd q hq
      rcases List.mem_cons.mp hq with rfl | hmem
      · have hp : q ∉ ps := (List.nodup_cons.mp hnd).1
        rw [stateAt_eq_of_cellAt?_eq (hframe2 q hp)]
        exact hstate
      · exact hmem2 (List.nodup_cons.mp hnd).2 q hmem

/-! ## Later commit primitives never empty a cell -/

theorem applyCommitStep_preserves {b b₃ : BoardM} {s : CommitStep}
    (h : applyCommitStep b s = some b₃) {q : Pos}
    (hq : stateAt b q ≠ .empty) : stateAt b₃ q ≠ .empty := by
  cases s with
  | crossStep p =>
    simp only [applyCommitStep] at h
    obtain ⟨h1, h2, _⟩ := setCellCrossS_some_props 2 b p b₃ h
    by_cases hqp : q = p
    · subst hqp
      rw [h1]
      simp
    · rw [stateAt_eq_of_cellAt?_eq (h2 q hqp)]
      exact hq
  | crownStep p =>
    simp only [applyCommitStep] at h
    obtain ⟨h1, h2, _⟩ := setCellCrownS_some_props 2 b p b₃ h
    by_cases hqp : q = p
    · subst hqp
      rw [h1]
      simp
    · rw [stateAt_eq_of_cellAt?_eq (h2 q hqp)]
      exact hq

theorem applyCommitSteps_preserves : ∀ (steps : List CommitStep) (b b₃ : BoardM),
    applyCommitSteps b steps = some b₃ →
    ∀ q, stateAt b q ≠ .empty → stateAt b₃ q ≠ .empty := by
  intro steps
  induction steps with
  | nil =>
    intro b b₃ h q hq
    simp only [applyCommitSteps] at h
    cases h
    exact hq
  | cons s rest ih =>
    intro b b₃ h q hq
    simp only [applyCommitSteps] at h
    cases hs : applyCommitStep b s with
    | none => rw [hs] at h; cases h
    | some b' =>
      rw [hs] at h
      exact ih b' b₃ (by simpa using h) q (applyCommitStep_preserves hs hq)

/-! ## The exclusion set of a crown -/

theorem mem_getCrossesFromCrown {b : BoardM} {n : Nat} {p : Pos} {k : Nat}
    (hp1 : p.1 < n) (hp2 : p.2 < n) (hcol : colorAt b p = some k) (q : Pos) :
    q ∈ getCrossesFromCrown b n p ↔
      q.1 < n ∧ q.2 < n ∧ q ≠ p ∧
        (q.1 = p.1 ∨ q.2 = p.2 ∨ colorAt b q = colorAt b p ∨ kingAdj p q) := by
  unfold getCrossesFromCrown
  rw [hcol]
  simp only [List.mem_dedup, List.mem_append]
  rw [nodup_colCellsIdx.mem_erase_iff, nodup_rowCellsIdx.mem_erase_iff,
    nodup_areaCells.mem_erase_iff]
  rw [mem_colCellsIdx, mem_rowCellsIdx, mem_areaCells, mem_surroundingCells]
  constructor
  · rintro ((((⟨hne, hc2, hq1⟩ | ⟨hne, hq1, hq2⟩) | ⟨hne, h1, h2, h3⟩) |
      ⟨hne, h1, h2, hk2⟩))
    · exact ⟨hq1, hc2 ▸ hp2, hne, Or.inr (Or.inl hc2)⟩
    · exact ⟨hq1 ▸ hp1, hq2, hne, Or.inl hq1⟩
    · exact ⟨h1, h2, hne, Or.inr (Or.inr (Or.inl h3))⟩
    · exact ⟨h1, h2, hne, Or.inr (Or.inr (Or.inr hk2))⟩
  · rintro ⟨h1, h2, hne, hq1 | hq2 | hcq | hk2⟩
    · exact Or.inl (Or.inl (Or.inr ⟨hne, hq1, h2⟩))
    · exact Or.inl (Or.inl (Or.inl ⟨hne, hq2, h1⟩))
    · exact Or.inl (Or.inr ⟨hne, h1, h2, hcq⟩)
    · exact Or.inr ⟨hne, h1, h2, hk2⟩

/-- C1: committing a crown at a colored cell p computes as its
exclusion set exactly the other in-bounds cells sharing p's row,
column, region, or 3x3 neighborhood; crossing that set succeeds,
leaves each of its cells crossed, and no later committed
cross-or-crown primitive of the solving loop returns any of them to
the unresolved state. -/
theorem c1_mark_exclusion (b : BoardM) (n : Nat) (p : Pos) (k : Nat)
    (hsq : Square b n) (hp1 : p.1 < n) (hp2 : p.2 < n)
    (hcol : colorAt b p = some k) :
    (∀ q, q ∈ getCrossesFromCrown b n p ↔
      q.1 < n ∧ q.2 < n ∧ q ≠ p ∧
        (q.1 = p.1 ∨ q.2 = p.2 ∨ colorAt b q = colorAt b p ∨ kingAdj p q)) ∧
    ∃ b₂, crossCellsS b (getCrossesFromCrown b n p) = some b₂ ∧
      (∀ q ∈ getCrossesFromCrown b n p, stateAt b₂ q = .cross) ∧
      ∀ steps b₃, applyCommitSteps b₂ steps = some b₃ →
        ∀ q ∈ getCrossesFromCrown b n p, stateAt b₃ q ≠ .empty := by
  refine ⟨fun q => mem_getCrossesFromCrown hp1 hp2 hcol q, ?_⟩
  have hin : ∀ q ∈ getCrossesFromCrown b n p, inBounds b q := by
    intro q hq
    obtain ⟨h1, h2, _⟩ := (mem_getCrossesFromCrown hp1 hp2 hcol q).mp hq
    exact inBounds_of_square hsq h1 h2
  have hnd : (getCrossesFromCrown b n p).Nodup := by
    unfold getCrossesFromCrown
    exact List.nodup_dedup _
  obtain ⟨b₂, hb₂, _, _, hmem⟩ := crossCellsS_some_props _ b hin
  refine ⟨b₂, hb₂, hmem hnd, ?_⟩
  intro steps b₃ hsteps q hq
  refine applyCommitSteps_preserves steps b₂ b₃ hsteps q ?_
  rw [hmem hnd q hq]
  simp

/-- Witness for C1 on a concrete 2x2 board: the crosses of a crown at
(0,0) are the other three cells, and crossing them sticks. -/
theorem c1_mark_exclusion_witness :
    (∀ q, q ∈ getCrossesFromCrown b2 2 (0, 0) ↔
      q.1 < 2 ∧ q.2 < 2 ∧ q ≠ (0, 0) ∧
        (q.1 = 0 ∨ q.2 = 0 ∨ colorAt b2 q = colorAt b2 (0, 0) ∨
          kingAdj (0, 0) q)) ∧
    ∃ b₂, crossCellsS b2 (getCrossesFromCrown b2 2 (0, 0)) = some b₂ ∧
      (∀ q ∈ getCrossesFromCrown b2 2 (0, 0), stateAt b₂ q = .cross) ∧
      ∀ steps b₃, applyCommitSteps b₂ steps = some b₃ →
        ∀ q ∈ getCrossesFromCrown b2 2 (0, 0), stateAt b₃ q ≠ .empty :=
  c1_mark_exclusion b2 2 (0, 0) 0 (by decide) (by decide) (by decide) (by decide)


/-! ## The speculative guess -/

theorem areaCells_staticEq {b' b : BoardM} (h : StaticEq b' b) (n k : Nat) :
    areaCells b' n k = areaCells b n k := by
  simp only [areaCells, areaRowScan]
  congr 1
  funext i
  congr 1
  funext j
  rw [colorAt_of_staticEq h]

theorem getCrossesFromCrown_staticEq {b' b : BoardM} (h : StaticEq b' b)
    (n : Nat) (p : Pos) :
    getCrossesFromCrown b' n p = getCrossesFromCrown b n p := by
  unfold getCrossesFromCrown
  rw [colorAt_of_staticEq h]
  cases colorAt b p with
  | none => rfl
  | some k => simp only [areaCells_staticEq h]

theorem crownCellSt_some_props {st : SolverSt} {t : Pos} {st2 : SolverSt}
    (h : crownCellSt st t = some st2) :
    stateAt st2.board t = .crown ∧
      (∀ q, q ≠ t → cellAt? st2.board q = cellAt? st.board q) ∧
      StaticEq st2.board st.board ∧ st2.crowns = st.crowns + 1 ∧
      st2.guessFlag = st.guessFlag ∧ st2.clickEnabled = st.clickEnabled ∧
      st2.stopFlag = st.stopFlag := by
  unfold crownCellSt at h
  cases hcr : setCellCrownS 2 st.board t with
  | none => rw [hcr] at h; cases h
  | some bb =>
    rw [hcr] at h
    cases h
    obtain ⟨h1, h2, h3⟩ := setCellCrownS_some_props 2 st.board t bb hcr
    exact ⟨h1, h2, h3, rfl, rfl, rfl, rfl⟩

theorem guessRun_restores {f : SolverSt → SolverSt} {n : Nat} {st : SolverSt}
    {t : Pos} {found : Bool} {simCrowns : Nat} {st' : SolverSt}
    (hf : ∀ s, StaticEq (f s).board s.board)
    (h : guessRun f n st t = some (found, simCrowns, st')) :
    st'.board = st.board ∧ st'.crowns = st.crowns ∧
      st'.clickEnabled = st.clickEnabled ∧ st'.guessFlag = st.guessFlag ∧
      found = (simCrowns == areaCount st.board n) := by
  unfold guessRun at h
  cases hc : crownCellSt { st with guessFlag := true, clickEnabled := false } t with
  | none =>
    simp only [hc, Option.bind_eq_bind, Option.none_bind] at h
    cases h
  | some st2 =>
    have hst2 : StaticEq st2.board st.board :=
      (crownCellSt_some_props hc).2.2.1
    have hstatic : StaticEq (f st2).board st.board := (hf st2).trans hst2
    have hload := loadState_staticEq hstatic
    simp only [hc, hload, Option.bind_eq_bind, Option.some_bind, Option.pure_def,
      Option.some.injEq, Prod.mk.injEq] at h
    obtain ⟨h1, h2, h3⟩ := h
    exact ⟨by rw [← h3], by rw [← h3], by rw [← h3], by rw [← h3],
      by rw [← h1, ← h2]⟩


theorem crownCellSt_two_some {st : SolverSt} {t : Pos}
    (hb : inBounds st.board t) : ∃ st2, crownCellSt st t = some st2 := by
  obtain ⟨b', hb'⟩ := setCellCrownS_two_some hb
  exact ⟨{ st with board := b', crowns := st.crowns + 1 },
    by simp [crownCellSt, hb']⟩

/-- C4: the snapshot/restore cycle of Solver.guess restores, for every
solve simulation that only mutates marking states (never a cell's
static fields), every cell of the board in full - marking state, screen
anchor, size and color - together with the stored crown count, the
click-enabled flag and the guess flag, whether the guess validated or
failed. -/
theorem c4_guess_frame (f : SolverSt → SolverSt) (n : Nat) (st : SolverSt)
    (t : Pos) (found : Bool) (simCrowns : Nat) (st' : SolverSt)
    (hf : ∀ s, StaticEq (f s).board s.board)
    (h : guessRun f n st t = some (found, simCrowns, st')) :
    st'.board = st.board ∧ st'.crowns = st.crowns ∧
      st'.clickEnabled = st.clickEnabled ∧ st'.guessFlag = st.guessFlag := by
  obtain ⟨h1, h2, h3, h4, _⟩ := guessRun_restores hf h
  exact ⟨h1, h2, h3, h4⟩

/-- Witness for C4 with a solve simulation that scrambles the state of
(0,0) and the crown count: the guess restores the 2x2 board. -/
theorem c4_guess_frame_witness :
    (⟨b2, 0, false, true, false⟩ : SolverSt).board =
      (⟨b2, 0, false, true, false⟩ : SolverSt).board ∧
    (⟨b2, 0, false, true, false⟩ : SolverSt).crowns =
      (⟨b2, 0, false, true, false⟩ : SolverSt).crowns ∧
    (⟨b2, 0, false, true, false⟩ : SolverSt).clickEnabled =
      (⟨b2, 0, false, true, false⟩ : SolverSt).clickEnabled ∧
    (⟨b2, 0, false, true, false⟩ : SolverSt).guessFlag =
      (⟨b2, 0, false, true, false⟩ : SolverSt).guessFlag :=
  c4_guess_frame (fun s => { s with board := toggleAt s.board (0, 0), crowns := 5 })
    2 ⟨b2, 0, false, true, false⟩ (0, 0) false 5 ⟨b2, 0, false, true, false⟩
    (fun s => staticEq_toggleAt s.board (0, 0)) (by decide)

/-- C3 (amended): a guess is reported validated exactly when the
simulated solve run ends with the crown count equal to the region
count; and whenever the cancellation flag is not set when the guess
returns, the caller commits a real crown at the guess cell plus its
computed exclusion set on a validated guess, and a real cross of the
guess cell alone on a failed one. -/
theorem c3_guess_commit (f : SolverSt → SolverSt) (n : Nat) (st : SolverSt)
    (t : Pos) (k : Nat) (found : Bool) (simCrowns : Nat) (st' : SolverSt)
    (hf : ∀ s, StaticEq (f s).board s.board)
    (hsq : Square st.board n) (ht1 : t.1 < n) (ht2 : t.2 < n)
    (hcol : colorAt st.board t = some k)
    (h : guessRun f n st t = some (found, simCrowns, st'))
    (hstop : st'.stopFlag = false) :
    (found = true ↔ simCrowns = areaCount st.board n) ∧
    ∃ stF, applyGuess f n st t = some stF ∧
      (found = true → stateAt stF.board t = .crown ∧
        ∀ q ∈ getCrossesFromCrown st.board n t, stateAt stF.board q = .cross) ∧
      (found = false → stateAt stF.board t = .cross) := by
  obtain ⟨hb, hcr, hcl, hgf, hfound⟩ := guessRun_restores hf h
  refine ⟨by rw [hfound]; exact beq_iff_eq, ?_⟩
  cases found with
  | true =>
    have hbt : inBounds st'.board t := by
      rw [hb]
      exact inBounds_of_square hsq ht1 ht2
    obtain ⟨st2, hst2⟩ := crownCellSt_two_some hbt
    obtain ⟨hcrown, hframe, hstatic, _, _, _, _⟩ := crownCellSt_some_props hst2
    have hsq2 : Square st2.board n :=
      square_of_staticEq hstatic (hb ▸ hsq)
    have hcross_eq : getCrossesFromCrown st2.board n t =
        getCrossesFromCrown st.board n t := by
      rw [getCrossesFromCrown_staticEq hstatic, hb]
    have hin : ∀ q ∈ getCrossesFromCrown st2.board n t, inBounds st2.board q := by
      intro q hq
      rw [hcross_eq] at hq
      obtain ⟨h1, h2, _⟩ := (mem_getCrossesFromCrown ht1 ht2 hcol q).mp hq
      exact inBounds_of_square hsq2 h1 h2
    obtain ⟨b3, hb3, _, hframe3, hmem3⟩ := crossCellsS_some_props _ st2.board hin
    have hnd : (getCrossesFromCrown st2.board n t).Nodup := by
      unfold getCrossesFromCrown
      exact List.nodup_dedup _
    refine ⟨{ st2 with board := b3 }, ?_, ?_, ?_⟩
    · unfold applyGuess
      simp only [h, Option.bind_eq_bind, Option.some_bind, hstop,
        Bool.false_eq_true, if_false, if_true, hst2, hb3, Option.pure_def]
    · intro _
      constructor
      · have hnotmem : t ∉ getCrossesFromCrown st2.board n t := by
          intro hmem
          rw [hcross_eq] at hmem
          exact ((mem_getCrossesFromCrown ht1 ht2 hcol t).mp hmem).2.2.1 rfl
        show stateAt b3 t = .crown
        rw [stateAt_eq_of_cellAt?_eq (hframe3 t hnotmem)]
        exact hcrown
      · intro q hq
        show stateAt b3 q = .cross
        rw [← hcross_eq] at hq
        exact hmem3 hnd q hq
    · intro hff
      cases hff
  | false =>
    have hbt : inBounds st'.board t := by
      rw [hb]
      exact inBounds_of_square hsq ht1 ht2
    obtain ⟨b2', hb2'⟩ := setCellCrossS_two_some hbt
    obtain ⟨hstate, _, _⟩ := setCellCrossS_some_props 2 st'.board t b2' hb2'
    refine ⟨{ st' with board := b2' }, ?_, ?_, ?_⟩
    · unfold applyGuess
      simp only [h, Option.bind_eq_bind, Option.some_bind, hstop,
        Bool.false_eq_true, if_false, hb2', Option.pure_def]
    · intro hff
      cases hff
    · intro _
      exact hstate

/-- Witness for C3 (amended) on a 1x1 board: the guess validates and
the crown is committed. -/
theorem c3_guess_commit_witness :
    (true = true ↔ 1 = areaCount b1 1) ∧
    ∃ stF, applyGuess id 1 ⟨b1, 0, false, true, false⟩ (0, 0) = some stF ∧
      (true = true → stateAt stF.board (0, 0) = .crown ∧
        ∀ q ∈ getCrossesFromCrown b1 1 (0, 0), stateAt stF.board q = .cross) ∧
      (true = false → stateAt stF.board (0, 0) = .cross) :=
  c3_guess_commit id 1 ⟨b1, 0, false, true, false⟩ (0, 0) 0 true 1
    ⟨b1, 0, false, true, false⟩ (fun s => StaticEq.refl s.board) (by decide)
    (by decide) (by decide) (by decide) (by decide) rfl

/-- Counterexample to C3 as stated: a guess invocation with the
cancellation flag observed set commits nothing - the guess cell stays
unresolved - contradicting the for-every-invocation commit policy. -/
theorem c3_counterexample : ¬ ApplyGuessClaim := by
  intro h
  have hres := h id 1 ⟨b1, 0, false, true, true⟩ (0, 0) true 1
    ⟨b1, 0, false, true, true⟩ ⟨b1, 0, false, true, true⟩ (by decide) (by decide)
  have hc := (hres.2.1 rfl).1
  revert hc
  decide


/-! ## Rule five: the matching search -/

theorem combos_len_gt : ∀ (l : List (Nat × List Nat)) (k : Nat),
    l.length < k → combos k l = [] := by
  intro l
  induction l with
  | nil =>
    intro k hk
    cases k with
    | zero => simp at hk
    | succ k => rfl
  | cons x xs ih =>
    intro k hk
    cases k with
    | zero => simp at hk
    | succ k =>
      simp only [combos]
      rw [ih k (by simp at hk; omega), ih (k + 1) (by simp at hk; omega)]
      simp

theorem combos_self : ∀ (l : List (Nat × List Nat)), combos l.length l = [l] := by
  intro l
  induction l with
  | nil => rfl
  | cons x xs ih =>
    simp only [List.length_cons, combos]
    rw [ih, combos_len_gt xs (xs.length + 1) (by omega)]
    simp

theorem findMatchingEntries_none_of_filter_nil {d : List (Nat × List Nat)}
    {i : Nat} (h : d.filter (fun e => e.2.length ≤ i) = []) (hi : 1 ≤ i) :
    findMatchingEntries d i = none := by
  unfold findMatchingEntries
  rw [h]
  cases i with
  | zero => omega
  | succ i => rfl

theorem findMatchingEntries_of_filter {d : List (Nat × List Nat)} {k : Nat}
    {gl : List (Nat × List Nat)}
    (hfil : d.filter (fun e => e.2.length ≤ k) = gl)
    (hlen : gl.length = k)
    (hunion : ((gl.flatMap (fun e => e.2)).dedup).length = k) :
    findMatchingEntries d k = some (gl.map (fun e => e.1)) := by
  unfold findMatchingEntries
  rw [hfil]
  have hc : combos k gl = [gl] := by
    rw [← hlen]
    exact combos_self gl
  dsimp only
  rw [hc]
  have hp : (((gl.flatMap (fun e => e.2)).dedup).length == k) = true := by
    rw [hunion]
    exact beq_self_eq_true k
  simp [List.find?, hp]

theorem foldl_insertNew_nodup : ∀ (l acc : List Nat), acc.Nodup →
    (l.foldl (fun acc k => if k ∈ acc then acc else acc ++ [k]) acc).Nodup := by
  intro l
  induction l with
  | nil => intro acc h; exact h
  | cons x xs ih =>
    intro acc h
    simp only [List.foldl_cons]
    split
    · exact ih acc h
    · rename_i hx
      refine ih _ ?_
      rw [List.nodup_append]
      refine ⟨h, List.nodup_singleton x, ?_⟩
      intro a ha hax
      rw [List.mem_singleton] at hax
      subst hax
      exact hx ha

theorem nodup_colorsInOrder {b : BoardM} {n : Nat} :
    (colorsInOrder b n).Nodup := by
  unfold colorsInOrder
  exact foldl_insertNew_nodup _ [] List.nodup_nil

theorem mem_areasDict {b : BoardM} {n : Nat} {isRow : Bool} {e : Nat × List Nat} :
    e ∈ areasDict b n isRow ↔
      e.1 ∈ colorsInOrder b n ∧ e.2 = linesOfEmpty b n isRow e.1 ∧ e.2 ≠ [] := by
  obtain ⟨c, ls⟩ := e
  simp only [areasDict, List.mem_filterMap]
  constructor
  · rintro ⟨c0, hc0, hcond⟩
    split at hcond
    · cases hcond
    · rename_i hne
      injection hcond with hcond
      rw [Prod.mk.injEq] at hcond
      obtain ⟨rfl, rfl⟩ := hcond
      exact ⟨hc0, rfl, hne⟩
  · rintro ⟨h1, h2, h3⟩
    subst h2
    exact ⟨c, h1, by rw [if_neg h3]⟩


theorem filterMap_keys_sublist {f : Nat → Option (Nat × List Nat)}
    (hf : ∀ c x, f c = some x → x.1 = c) :
    ∀ l : List Nat, ((l.filterMap f).map Prod.fst).Sublist l := by
  intro l
  induction l with
  | nil => simp
  | cons c t ih =>
    rw [List.filterMap_cons]
    cases hfc : f c with
    | none => exact ih.cons c
    | some x =>
      rw [List.map_cons, hf c x hfc]
      exact ih.cons₂ c

theorem areasDict_keys_nodup {b : BoardM} {n : Nat} {isRow : Bool} :
    ((areasDict b n isRow).map Prod.fst).Nodup := by
  refine List.Sublist.nodup ?_ (nodup_colorsInOrder (b := b) (n := n))
  unfold areasDict
  refine filterMap_keys_sublist ?_ _
  intro c x hx
  dsimp only at hx
  split at hx
  · cases hx
  · injection hx with hx
    rw [← hx]

theorem length_eq_of_nodup_mem_iff {l1 l2 : List Nat} (h1 : l1.Nodup)
    (h2 : l2.Nodup) (hm : ∀ x, x ∈ l1 ↔ x ∈ l2) : l1.length = l2.length := by
  rw [← List.toFinset_card_of_nodup h1, ← List.toFinset_card_of_nodup h2]
  congr 1
  ext x
  simp only [List.mem_toFinset]
  exact hm x

theorem nodup_linesOfEmpty {b : BoardM} {n : Nat} {isRow : Bool} {k : Nat} :
    (linesOfEmpty b n isRow k).Nodup :=
  List.nodup_dedup _

theorem mem_linesOfEmpty {b : BoardM} {n : Nat} {isRow : Bool} {k l : Nat} :
    l ∈ linesOfEmpty b n isRow k ↔
      ∃ p : Pos, p.1 < n ∧ p.2 < n ∧ colorAt b p = some k ∧
        stateAt b p = .empty ∧ lineOf isRow p = l := by
  unfold linesOfEmpty
  rw [List.mem_dedup]
  simp only [List.mem_map, List.mem_filter]
  constructor
  · rintro ⟨p, ⟨hp, he⟩, hl⟩
    obtain ⟨h1, h2, h3⟩ := mem_areaCells.mp hp
    exact ⟨p, h1, h2, h3, by simpa using he, hl⟩
  · rintro ⟨p, h1, h2, h3, h4, h5⟩
    exact ⟨p, ⟨mem_areaCells.mpr ⟨h1, h2, h3⟩, by simpa using h4⟩, h5⟩

theorem linesOfEmpty_lt {b : BoardM} {n : Nat} {isRow : Bool} {k l : Nat}
    (h : l ∈ linesOfEmpty b n isRow k) : l < n := by
  obtain ⟨p, h1, h2, _, _, h5⟩ := mem_linesOfEmpty.mp h
  cases isRow <;> simp [lineOf] at h5 <;> omega

theorem mem_lineCellsOf {isRow : Bool} {n i : Nat} {q : Pos} :
    q ∈ lineCellsOf isRow n i ↔
      lineOf isRow q = i ∧ (if isRow then q.2 else q.1) < n := by
  cases isRow
  · simpa [lineCellsOf, lineOf] using mem_colCellsIdx
  · simpa [lineCellsOf, lineOf] using mem_rowCellsIdx

theorem mem_emptyCellsOfLine {b : BoardM} {isRow : Bool} {n i : Nat} {q : Pos}
    (hi : i < n) :
    q ∈ emptyCellsOfLine b n isRow i ↔
      lineOf isRow q = i ∧ q.1 < n ∧ q.2 < n ∧ stateAt b q = .empty := by
  unfold emptyCellsOfLine
  rw [List.mem_filter, mem_lineCellsOf]
  cases isRow
  · constructor
    · rintro ⟨⟨h1, h2⟩, h3⟩
      simp only [Bool.false_eq_true, if_false] at h2
      refine ⟨h1, h2, ?_, by simpa using h3⟩
      have : lineOf false q = q.2 := rfl
      omega
    · rintro ⟨h1, h2, h3, h4⟩
      exact ⟨⟨h1, by simpa using h2⟩, by simpa using h4⟩
  · constructor
    · rintro ⟨⟨h1, h2⟩, h3⟩
      simp only [if_true] at h2
      refine ⟨h1, ?_, h2, by simpa using h3⟩
      have : lineOf true q = q.1 := rfl
      omega
    · rintro ⟨h1, h2, h3, h4⟩
      exact ⟨⟨h1, by simpa using h3⟩, by simpa using h4⟩

theorem mem_crossesOfMatch {b : BoardM} {n : Nat} {isRow : Bool}
    {matching : List Nat} {p : Pos} :
    p ∈ crossesOfMatch b n isRow matching ↔
      (∃ g ∈ matching, lineOf isRow p ∈ linesOfEmpty b n isRow g) ∧
        p.1 < n ∧ p.2 < n ∧ stateAt b p = .empty ∧
        ¬ colorAt b p ∈ matching.map some := by
  unfold crossesOfMatch
  rw [List.mem_filter]
  simp only [List.mem_dedup, List.mem_flatMap]
  constructor
  · rintro ⟨⟨l, ⟨g, hg, hl⟩, hpl⟩, hcol⟩
    have hln : l < n := linesOfEmpty_lt hl
    obtain ⟨h1, h2, h3, h4⟩ := (mem_emptyCellsOfLine hln).mp hpl
    exact ⟨⟨g, hg, h1 ▸ hl⟩, h2, h3, h4, by simpa using hcol⟩
  · rintro ⟨⟨g, hg, hl⟩, h2, h3, h4, h5⟩
    have hln : lineOf isRow p < n := linesOfEmpty_lt hl
    exact ⟨⟨lineOf isRow p, ⟨g, hg, hl⟩,
      (mem_emptyCellsOfLine hln).mpr ⟨rfl, h2, h3, h4⟩⟩, by simpa using h5⟩

theorem processLineGo_append_none {b : BoardM} {n : Nat} {isRow : Bool}
    {d : List (Nat × List Nat)} : ∀ (l1 l2 : List Nat),
    (∀ i ∈ l1, findMatchingEntries d i = none) →
    processLineGo b n isRow d (l1 ++ l2) = processLineGo b n isRow d l2 := by
  intro l1
  induction l1 with
  | nil => intro l2 _; rfl
  | cons i t ih =>
    intro l2 hnone
    rw [List.cons_append]
    simp only [processLineGo, hnone i (List.mem_cons_self _ _)]
    exact ih l2 (fun j hj => hnone j (List.mem_cons_of_mem _ hj))


/-- C5 (amended): if exactly k regions' unresolved cells touch exactly
the same k-line set L - with, as the search requires, every other
region with unresolved cells touching more than k lines - and the
opposite-orientation pass proposes nothing, and the claimed exclusion
set is nonempty, then rule five's proposed exclusions are exactly the
unresolved cells in the lines of L whose region is outside the matched
group. -/
theorem c5_pairing_rule (b : BoardM) (n k : Nat) (isRow : Bool)
    (G L : List Nat)
    (hk2 : 2 ≤ k) (hkmax : k ≤ (areaCount b n + 1) / 2)
    (hGnd : G.Nodup) (hGlen : G.length = k)
    (hGmem : ∀ g ∈ G, g ∈ colorsInOrder b n)
    (hLnd : L.Nodup) (hLlen : L.length = k)
    (hGL : ∀ g ∈ G, (linesOfEmpty b n isRow g).toFinset = L.toFinset)
    (hout : ∀ c ∈ colorsInOrder b n, c ∉ G →
      linesOfEmpty b n isRow c = [] ∨ k < (linesOfEmpty b n isRow c).length)
    (hother : processLine b n (!isRow) = [])
    (p0 : Pos)
    (hp0 : p0.1 < n ∧ p0.2 < n ∧ lineOf isRow p0 ∈ L ∧
      stateAt b p0 = .empty ∧ ¬ colorAt b p0 ∈ G.map some) :
    ∀ p : Pos, p ∈ ruleFive b n ↔
      (p.1 < n ∧ p.2 < n ∧ lineOf isRow p ∈ L ∧ stateAt b p = .empty ∧
        ¬ colorAt b p ∈ G.map some) := by
  have hGne : ∃ g, g ∈ G := by
    cases G with
    | nil => simp at hGlen; omega
    | cons g t => exact ⟨g, List.mem_cons_self _ _⟩
  have hMemL : ∀ g ∈ G, ∀ x, x ∈ linesOfEmpty b n isRow g ↔ x ∈ L := by
    intro g hg x
    rw [← List.mem_toFinset, hGL g hg, List.mem_toFinset]
  have hF0 : ∀ g ∈ G, (linesOfEmpty b n isRow g).length = k := by
    intro g hg
    rw [length_eq_of_nodup_mem_iff nodup_linesOfEmpty hLnd (hMemL g hg)]
    exact hLlen
  have hF3 : ∀ i, i < k →
      (areasDict b n isRow).filter (fun e => e.2.length ≤ i) = [] := by
    intro i hik
    rw [List.filter_eq_nil_iff]
    intro e he
    obtain ⟨hc, hls, hne⟩ := mem_areasDict.mp he
    by_cases hgG : e.1 ∈ G
    · have := hF0 e.1 hgG
      rw [hls]
      simp only [decide_eq_true_eq]
      omega
    · rcases hout e.1 hc hgG with hnil | hgt
      · exact absurd (hls.trans hnil) hne
      · rw [hls]
        simp only [decide_eq_true_eq]
        omega
  have hF4 : ∀ e ∈ (areasDict b n isRow).filter (fun e => e.2.length ≤ k),
      e.1 ∈ G ∧ e.2 = linesOfEmpty b n isRow e.1 := by
    intro e he
    rw [List.mem_filter] at he
    obtain ⟨hd, hlen⟩ := he
    obtain ⟨hc, hls, hne⟩ := mem_areasDict.mp hd
    refine ⟨?_, hls⟩
    by_contra hgG
    rcases hout e.1 hc hgG with hnil | hgt
    · exact hne (hls.trans hnil)
    · rw [hls] at hlen
      simp only [decide_eq_true_eq] at hlen
      omega
  have hF5 : ∀ g ∈ G, (g, linesOfEmpty b n isRow g) ∈
      (areasDict b n isRow).filter (fun e => e.2.length ≤ k) := by
    intro g hg
    rw [List.mem_filter]
    constructor
    · refine mem_areasDict.mpr ⟨hGmem g hg, rfl, ?_⟩
      intro hnil
      have hnil' : linesOfEmpty b n isRow g = [] := hnil
      have h0 := hF0 g hg
      rw [hnil'] at h0
      simp at h0
      omega
    · simp only [decide_eq_true_eq]
      show (linesOfEmpty b n isRow g).length ≤ k
      rw [hF0 g hg]
  have hF6 : (((areasDict b n isRow).filter
      (fun e => e.2.length ≤ k)).map Prod.fst).Nodup :=
    List.Sublist.nodup (List.Sublist.map _ (List.filter_sublist _))
      areasDict_keys_nodup
  have hF7 : ∀ x, x ∈ ((areasDict b n isRow).filter
      (fun e => e.2.length ≤ k)).map Prod.fst ↔ x ∈ G := by
    intro x
    constructor
    · intro hx
      obtain ⟨e, he, hex⟩ := List.mem_map.mp hx
      exact hex ▸ (hF4 e he).1
    · intro hx
      exact List.mem_map.mpr ⟨(x, linesOfEmpty b n isRow x), hF5 x hx, rfl⟩
  have hF8 : ((areasDict b n isRow).filter
      (fun e => e.2.length ≤ k)).length = k := by
    rw [← List.length_map _ Prod.fst]
    rw [length_eq_of_nodup_mem_iff hF6 hGnd hF7]
    exact hGlen
  have hF9 : ((((areasDict b n isRow).filter
      (fun e => e.2.length ≤ k)).flatMap (fun e => e.2)).dedup).length = k := by
    rw [length_eq_of_nodup_mem_iff (List.nodup_dedup _) hLnd ?_]
    · exact hLlen
    · intro x
      rw [List.mem_dedup, List.mem_flatMap]
      constructor
      · rintro ⟨e, he, hx⟩
        obtain ⟨hg, hls⟩ := hF4 e he
        rw [hls] at hx
        exact (hMemL e.1 hg x).mp hx
      · intro hx
        obtain ⟨g, hg⟩ := hGne
        exact ⟨(g, linesOfEmpty b n isRow g), hF5 g hg,
          (hMemL g hg x).mpr hx⟩
  have hF10 : findMatchingEntries (areasDict b n isRow) k =
      some (((areasDict b n isRow).filter
        (fun e => e.2.length ≤ k)).map (fun e => e.1)) :=
    findMatchingEntries_of_filter rfl hF8 hF9
  have hKeysEq : ∀ x, x ∈ ((areasDict b n isRow).filter
      (fun e => e.2.length ≤ k)).map (fun e => e.1) ↔ x ∈ G := hF7
  have hCr : ∀ p : Pos, p ∈ crossesOfMatch b n isRow
      (((areasDict b n isRow).filter (fun e => e.2.length ≤ k)).map
        (fun e => e.1)) ↔
      (p.1 < n ∧ p.2 < n ∧ lineOf isRow p ∈ L ∧ stateAt b p = .empty ∧
        ¬ colorAt b p ∈ G.map some) := by
    intro p
    rw [mem_crossesOfMatch]
    constructor
    · rintro ⟨⟨g, hg, hl⟩, h2, h3, h4, h5⟩
      refine ⟨h2, h3, (hMemL g ((hKeysEq g).mp hg) _).mp hl, h4, ?_⟩
      intro hc
      apply h5
      obtain ⟨c, hcG, hcc⟩ := List.mem_map.mp hc
      exact List.mem_map.mpr ⟨c, (hKeysEq c).mpr hcG, hcc⟩
    · rintro ⟨h1, h2, hL, h4, h5⟩
      obtain ⟨g, hg⟩ := hGne
      refine ⟨⟨g, (hKeysEq g).mpr hg, (hMemL g hg _).mpr hL⟩, h1, h2, h4, ?_⟩
      intro hc
      apply h5
      obtain ⟨c, hcK, hcc⟩ := List.mem_map.mp hc
      exact List.mem_map.mpr ⟨c, (hKeysEq c).mp hcK, hcc⟩
  have hcs_ne : crossesOfMatch b n isRow
      (((areasDict b n isRow).filter (fun e => e.2.length ≤ k)).map
        (fun e => e.1)) ≠ [] := by
    refine List.ne_nil_of_mem ((hCr p0).mpr hp0)
  have hPL : processLine b n isRow = crossesOfMatch b n isRow
      (((areasDict b n isRow).filter (fun e => e.2.length ≤ k)).map
        (fun e => e.1)) := by
    unfold processLine
    have hsplit : List.range' 2 ((areaCount b n + 1) / 2 - 1) =
        List.range' 2 (k - 2) ++
          List.range' k ((areaCount b n + 1) / 2 - 1 - (k - 2)) := by
      have hr := List.range'_append 2 (k - 2)
        ((areaCount b n + 1) / 2 - 1 - (k - 2)) 1
      have h1 : 2 + 1 * (k - 2) = k := by omega
      have h2 : (areaCount b n + 1) / 2 - 1 - (k - 2) + (k - 2) =
          (areaCount b n + 1) / 2 - 1 := by omega
      rw [h1, h2] at hr
      exact hr.symm
    rw [hsplit]
    have hskip := @processLineGo_append_none b n isRow (areasDict b n isRow)
      (List.range' 2 (k - 2))
      (List.range' k ((areaCount b n + 1) / 2 - 1 - (k - 2)))
      (fun i hi => by
        rw [List.mem_range'] at hi
        obtain ⟨j, hj, rfl⟩ := hi
        exact findMatchingEntries_none_of_filter_nil (hF3 _ (by omega)) (by omega))
    rw [hskip]
    obtain ⟨c, hc⟩ : ∃ c, (areaCount b n + 1) / 2 - 1 - (k - 2) = c + 1 :=
      ⟨(areaCount b n + 1) / 2 - 1 - (k - 2) - 1, by omega⟩
    rw [hc]
    show processLineGo b n isRow (areasDict b n isRow)
      (k :: List.range' (k + 1) c) = _
    simp only [processLineGo, hF10]
    rw [if_neg hcs_ne]
  intro p
  unfold ruleFive
  cases isRow
  · rw [List.mem_append, hPL]
    have hoth : processLine b n true = [] := by simpa using hother
    rw [hoth]
    simp only [List.not_mem_nil, false_or]
    exact hCr p
  · rw [List.mem_append, hPL]
    have hoth : processLine b n false = [] := by simpa using hother
    rw [hoth]
    simp only [List.not_mem_nil, or_false]
    exact hCr p


/-- Witness for C5 (amended) on the board b5w: regions 0 and 1 share
exactly the row set {0, 1}, every other region touches more rows, the
column pass proposes nothing, and the rule's exclusions at (0, 2) match
the claimed set. -/
theorem c5_pairing_rule_witness :
    (0, 2) ∈ ruleFive b5w 5 ↔
      ((0, 2) : Pos).1 < 5 ∧ ((0, 2) : Pos).2 < 5 ∧
        lineOf true (0, 2) ∈ ([0, 1] : List Nat) ∧
        stateAt b5w (0, 2) = .empty ∧
        ¬ colorAt b5w (0, 2) ∈ ([0, 1] : List Nat).map some :=
  c5_pairing_rule b5w 5 2 true [0, 1] [0, 1] (by decide) (by decide)
    (by decide) (by decide) (by decide) (by decide) (by decide) (by decide)
    (by decide) (by decide) (0, 2) (by decide) (0, 2)

/-- Counterexample to C5 as stated: on b5cex regions 0 and 1 are
exactly the regions whose unresolved cells touch the row set {0, 1},
yet the search matches the unrelated group of regions 2 and 4 first and
proposes the cell (3, 0), which lies outside the claimed exclusion
set. -/
theorem c5_counterexample : ¬ RuleFiveClaim := by
  intro h
  have hc := (h b5cex 5 2 true [0, 1] [0, 1] (by decide) (by decide)
    (by decide) (by decide) (by decide) (by decide) (by decide) (by decide)
    (by decide) (by decide) ((3, 0) : Pos)).mp (by decide)
  revert hc
  decide


/-! ## Cancellation and pointer actions -/

/-- C6 failing input: with the cancellation flag observed set (clicking
enabled), committing the two-cell segment still issues the drag -
click_and_drag_cells has no stop-flag check - while single-point
toggles are correctly suppressed by toggle_cell's flag check. -/
theorem c6_drag_after_stop :
    (crossCellsPath ⟨true, true, true⟩ 2 b2 [(0, 0), (0, 1)]).map
      (fun r => r.2.2) = some [PtrAction.dragA (0, 0) (0, 1)] ∧
    ∀ (b : BoardM) (p : Pos) (click : Bool),
      (toggleCellT ⟨true, true, true⟩ click b p).2 = [] := by
  constructor
  · decide
  · intro b p click
    simp [toggleCellT]


/-! ## The action planner: committed segments -/

theorem contigIn_trans {a b c : List Pos} (h1 : ContigIn a b)
    (h2 : ContigIn b c) : ContigIn a c := by
  obtain ⟨l1, r1, hb⟩ := h1
  obtain ⟨l2, r2, hc⟩ := h2
  exact ⟨l2 ++ l1, r1 ++ r2, by rw [hc, hb]; simp⟩

theorem dropWhile_suffix_decomp (p : Pos → Bool) :
    ∀ l : List Pos, ∃ pre, l = pre ++ l.dropWhile p := by
  intro l
  induction l with
  | nil => exact ⟨[], rfl⟩
  | cons x xs ih =>
    by_cases hp : p x
    · obtain ⟨pre, hpre⟩ := ih
      refine ⟨x :: pre, ?_⟩
      rw [List.dropWhile_cons_of_pos hp]
      rw [List.cons_append, ← hpre]
    · exact ⟨[], by rw [List.dropWhile_cons_of_neg hp]; simp⟩

theorem trimSeg_contig (p : Pos → Bool) (s : List Pos) :
    ContigIn (trimSeg p s) s := by
  obtain ⟨pre1, h1⟩ := dropWhile_suffix_decomp (fun q => !p q) s
  obtain ⟨pre2, h2⟩ := dropWhile_suffix_decomp (fun q => !p q)
    (s.dropWhile (fun q => !p q)).reverse
  refine ⟨pre1, pre2.reverse, ?_⟩
  have hd := congrArg List.reverse h2
  rw [List.reverse_reverse, List.reverse_append] at hd
  simp only [trimSeg]
  rw [List.append_assoc, ← hd, ← h1]

theorem splitSegsAux_contig (keep : Pos → Bool) :
    ∀ (l acc : List Pos) (s : List Pos), s ∈ splitSegsAux keep acc l →
    ContigIn s (acc.reverse ++ l) := by
  intro l
  induction l with
  | nil =>
    intro acc s hs
    unfold splitSegsAux at hs
    split at hs
    · simp at hs
    · rw [List.mem_singleton] at hs
      subst hs
      exact ⟨[], [], by simp⟩
  | cons c cs ih =>
    intro acc s hs
    unfold splitSegsAux at hs
    split at hs
    · have h := ih (c :: acc) s hs
      obtain ⟨l1, r1, he⟩ := h
      refine ⟨l1, r1, ?_⟩
      rw [← he]
      simp
    · split at hs
      · rename_i hkeep hacc
        have h := ih [] s hs
        obtain ⟨l1, r1, he⟩ := h
        rw [List.isEmpty_iff] at hacc
        subst hacc
        simp only [List.reverse_nil, List.nil_append] at he
        exact ⟨c :: l1, r1, by simp [he]⟩
      · rcases List.mem_cons.mp hs with rfl | hmem
        · exact ⟨[], c :: cs, by simp⟩
        · have h := ih [] s hmem
          obtain ⟨l1, r1, he⟩ := h
          simp only [List.reverse_nil, List.nil_append] at he
          exact ⟨acc.reverse ++ c :: l1, r1, by simp [he]⟩

theorem makeLineSegments_mem {b : BoardM} {lineCells cellsToCross : List Pos}
    {segs : List (List Pos)} {s : List Pos}
    (h : makeLineSegments b lineCells cellsToCross = some segs) (hs : s ∈ segs) :
    s ≠ [] ∧ ContigIn s lineCells := by
  unfold makeLineSegments at h
  split at h
  · injection h with h
    subst h
    rw [List.mem_filter] at hs
    obtain ⟨hmem, hne⟩ := hs
    obtain ⟨s0, hs0, hts⟩ := List.mem_map.mp hmem
    refine ⟨by simpa using hne, ?_⟩
    rw [← hts]
    have hc := splitSegsAux_contig _ lineCells [] s0 hs0
    simp only [List.reverse_nil, List.nil_append] at hc
    exact contigIn_trans (trimSeg_contig _ s0) hc
  · cases h

theorem collectSegments_mem : ∀ (lines : List (LineKey × Nat))
    {b : BoardM} {n : Nat} {targets : List Pos} {res : List (List Pos)},
    collectSegments b n targets lines = some res → ∀ s ∈ res,
    s ≠ [] ∧ ∃ key : LineKey, ContigIn s (lineKeyCells n key) := by
  intro lines
  induction lines with
  | nil =>
    intro b n targets res h s hs
    injection h with h
    subst h
    simp at hs
  | cons e rest ih =>
    intro b n targets res h s hs
    cases hm : makeLineSegments b (lineKeyCells n e.1)
        (targets.filter (· ∈ lineKeyCells n e.1)) with
    | none =>
      simp only [collectSegments, hm, Option.bind_eq_bind, Option.none_bind] at h
      exact Option.noConfusion h
    | some segs1 =>
      simp only [collectSegments, hm, Option.bind_eq_bind, Option.some_bind] at h
      cases hr : collectSegments b n targets rest with
      | none => rw [hr] at h; simp at h
      | some rest2 =>
        rw [hr] at h
        simp only [Option.some_bind, Option.pure_def, Option.some.injEq] at h
        subst h
        rcases List.mem_append.mp hs with h1 | h2
        · obtain ⟨hne, hc⟩ := makeLineSegments_mem hm h1
          exact ⟨hne, e.1, hc⟩
        · exact ih hr s h2

theorem mem_insertDescBy {f : List Pos → Nat} {x y : List Pos}
    {l : List (List Pos)} :
    y ∈ insertDescBy f x l ↔ y = x ∨ y ∈ l := by
  induction l with
  | nil => simp [insertDescBy]
  | cons z zs ih =>
    unfold insertDescBy
    split
    · rw [List.mem_cons, ih, List.mem_cons]
      tauto
    · simp [List.mem_cons]

theorem mem_sortDescBy {f : List Pos → Nat} {l : List (List Pos)}
    {y : List Pos} (h : y ∈ sortDescBy f l) : y ∈ l := by
  unfold sortDescBy at h
  suffices haux : ∀ (l acc : List (List Pos)) (y : List Pos),
      y ∈ l.foldl (fun acc x => insertDescBy f x acc) acc → y ∈ acc ∨ y ∈ l by
    rcases haux l [] y h with h1 | h1
    · simp at h1
    · exact h1
  intro l
  induction l with
  | nil =>
    intro acc y hy
    exact Or.inl hy
  | cons x xs ih =>
    intro acc y hy
    simp only [List.foldl_cons] at hy
    rcases ih _ y hy with h1 | h1
    · rcases mem_insertDescBy.mp h1 with rfl | h2
      · exact Or.inr (List.mem_cons_self _ _)
      · exact Or.inl h2
    · exact Or.inr (List.mem_cons_of_mem _ h1)

theorem planSegments_mem {b : BoardM} {n : Nat} {targets : List Pos}
    {segs : List (List Pos)} {s : List Pos}
    (h : planSegments b n targets = some segs) (hs : s ∈ segs) :
    s ≠ [] ∧ ∃ key : LineKey, ContigIn s (lineKeyCells n key) := by
  unfold planSegments at h
  cases hc : collectSegments b n targets
      (sortDescBy (fun e => e.2) (countLines targets)) with
  | none => rw [hc] at h; cases h
  | some res =>
    rw [hc] at h
    injection h with h
    subst h
    exact collectSegments_mem _ hc s (mem_sortDescBy hs)

theorem perm_cons_erase_pos : ∀ (l : List Pos) (c : Pos), c ∈ l →
    l.Perm (c :: l.erase c) := by
  intro l
  induction l with
  | nil => intro c hc; cases hc
  | cons x xs ih =>
    intro c hc
    by_cases hx : c = x
    · subst hx
      have he : (c :: xs).erase c = xs := by simp
      rw [he]
    · have hmem : c ∈ xs := by
        rcases List.mem_cons.mp hc with h | h
        · exact absurd h hx
        · exact h
      have he : (x :: xs).erase c = x :: xs.erase c := by
        rw [List.erase_cons]
        simp [Ne.symm hx]
      rw [he]
      exact ((ih c hmem).cons x).trans (List.Perm.swap c x _)

theorem removeAll?_perm : ∀ (cs l l2 : List Pos), removeAll? l cs = some l2 →
    l.Perm (cs ++ l2) := by
  intro cs
  induction cs with
  | nil =>
    intro l l2 h
    injection h with h
    subst h
    exact List.Perm.refl l
  | cons c cs ih =>
    intro l l2 h
    simp only [removeAll?, removeOne?] at h
    split at h
    · rename_i hc
      simp only [Option.some_bind] at h
      exact (perm_cons_erase_pos l c hc).trans ((ih _ _ h).cons c)
    · rw [Option.none_bind] at h
      exact Option.noConfusion h

theorem planStep_spec {cfg : PlanCfg} {n : Nat} {b : BoardM}
    {targets : List Pos} {b2 : BoardM} {targets2 seg : List Pos}
    {acts : List PtrAction}
    (h : planStep cfg n b targets = some (b2, targets2, seg, acts)) :
    targets.Perm (seg ++ targets2) ∧ seg ≠ [] ∧
      ∃ key : LineKey, ContigIn seg (lineKeyCells n key) := by
  unfold planStep at h
  cases hps : planSegments b n targets with
  | none =>
    simp only [hps, Option.bind_eq_bind, Option.none_bind] at h
    exact Option.noConfusion h
  | some segs =>
    cases segs with
    | nil => simp [hps] at h
    | cons s0 rest =>
      simp only [hps, Option.bind_eq_bind, Option.some_bind] at h
      obtain ⟨hne, hkey⟩ := planSegments_mem hps (List.mem_cons_self s0 rest)
      have hmain : ∀ (X : Option (BoardM × List PtrAction)),
          (X.bind fun y => (removeAll? targets s0).bind
            fun t2 => pure (y.1, t2, s0, y.2)) = some (b2, targets2, seg, acts) →
          targets.Perm (seg ++ targets2) ∧ seg ≠ [] ∧
            ∃ key : LineKey, ContigIn seg (lineKeyCells n key) := by
        intro X hX
        cases X with
        | none => exact Option.noConfusion hX
        | some ba =>
          rw [Option.some_bind] at hX
          cases hR : removeAll? targets s0 with
          | none =>
            rw [hR, Option.none_bind] at hX
            exact Option.noConfusion hX
          | some t2 =>
            rw [hR, Option.some_bind] at hX
            simp only [Option.pure_def, Option.some.injEq, Prod.mk.injEq] at hX
            obtain ⟨h1, h2, h3, h4⟩ := hX
            subst h2
            subst h3
            exact ⟨removeAll?_perm s0 targets t2 hR, hne, hkey⟩
      split at h
      · exact hmain _ h
      · split at h
        · exact hmain _ h
        · exact hmain _ h

theorem planLoop_spec : ∀ (fuel : Nat) (cfg : PlanCfg) (n : Nat) (b : BoardM)
    (targets : List Pos) (segAcc : List (List Pos)) (actAcc : List PtrAction)
    (bF : BoardM) (segs : List (List Pos)) (acts : List PtrAction),
    planLoop cfg n fuel b targets segAcc actAcc = some (bF, segs, acts) →
    ∃ newSegs, segs = segAcc ++ newSegs ∧
      (newSegs.flatMap id).Perm targets ∧
      ∀ s ∈ newSegs, s ≠ [] ∧ ∃ key : LineKey, ContigIn s (lineKeyCells n key) := by
  intro fuel
  induction fuel with
  | zero =>
    intro cfg n b targets segAcc actAcc bF segs acts h
    cases targets with
    | nil =>
      simp only [planLoop, Option.some.injEq, Prod.mk.injEq] at h
      obtain ⟨_, h2, _⟩ := h
      exact ⟨[], by simp [← h2], by simp, by simp⟩
    | cons t ts => cases h
  | succ fuel ih =>
    intro cfg n b targets segAcc actAcc bF segs acts h
    cases targets with
    | nil =>
      simp only [planLoop, Option.some.injEq, Prod.mk.injEq] at h
      obtain ⟨_, h2, _⟩ := h
      exact ⟨[], by simp [← h2], by simp, by simp⟩
    | cons t ts =>
      simp only [planLoop, Option.bind_eq_bind] at h
      cases hstep : planStep cfg n b (t :: ts) with
      | none => rw [hstep] at h; simp at h
      | some r =>
        rw [hstep] at h
        simp only [Option.some_bind] at h
        obtain ⟨b1, t1, s1, a1⟩ := r
        obtain ⟨hperm1, hne1, hkey1⟩ := planStep_spec hstep
        obtain ⟨newSegs1, hsegs1, hperm2, hprops⟩ :=
          ih cfg n b1 t1 (segAcc ++ [s1]) (actAcc ++ a1) bF segs acts h
        refine ⟨s1 :: newSegs1, ?_, ?_, ?_⟩
        · rw [hsegs1]
          simp
        · have hflat : (s1 :: newSegs1).flatMap id = s1 ++ newSegs1.flatMap id := by
            simp
          rw [hflat]
          exact (hperm2.append_left s1).trans hperm1.symm
        · intro s hsm
          rcases List.mem_cons.mp hsm with rfl | hmem
          · exact ⟨hne1, hkey1⟩
          · exact hprops s hmem

/-- C2 (amended): whenever the planner, with clicking enabled, runs to
completion on a list of unresolved cells, the concatenation of the
committed segments is a permutation of the input (their union is
exactly the input set and, the input having no duplicates, each cell
appears in exactly one committed segment exactly once), and every
multi-cell committed segment is a contiguous run of cells of one row or
one column.  A run aborts with an error exactly when a selected segment
spans an already-resolved interior cell, as the counterexample input
shows. -/
theorem c2_planner (cfg : PlanCfg) (n : Nat) (b : BoardM)
    (targets : List Pos) (bF : BoardM) (segs : List (List Pos))
    (acts : List PtrAction)
    (hclick : cfg.clickEnabled = true) (hcc : cfg.clickCrossEnabled = true)
    (hnd : targets.Nodup)
    (hemp : ∀ p ∈ targets, stateAt b p = .empty)
    (h : crossCellsPath cfg n b targets = some (bF, segs, acts)) :
    (segs.flatMap id).Perm targets ∧ (segs.flatMap id).Nodup ∧
      ∀ s ∈ segs, 1 < s.length →
        ∃ key : LineKey, ContigIn s (lineKeyCells n key) := by
  unfold crossCellsPath at h
  rw [hclick, hcc] at h
  simp only [Bool.and_self, Bool.not_true, Bool.false_eq_true, if_false] at h
  have hfil : targets.filter (fun p => stateAt b p = .empty) = targets := by
    rw [List.filter_eq_self]
    intro p hp
    simpa using hemp p hp
  rw [hfil] at h
  obtain ⟨newSegs, hsegs, hperm, hprops⟩ :=
    planLoop_spec targets.length cfg n b targets [] [] bF segs acts h
  simp only [List.nil_append] at hsegs
  subst hsegs
  refine ⟨hperm, (hperm.nodup_iff).mpr hnd, ?_⟩
  intro s hsm _
  exact (hprops s hsm).2

/-- Witness for C2 (amended): on an all-empty 2x2 board the planner
commits the two diagonal cells as two singleton segments whose
concatenation is a permutation of the input. -/
theorem c2_planner_witness :
    (([[(0, 0)], [(1, 1)]] : List (List Pos)).flatMap id).Perm
      [(0, 0), (1, 1)] ∧
    (([[(0, 0)], [(1, 1)]] : List (List Pos)).flatMap id).Nodup :=
  ⟨(c2_planner ⟨true, true, false⟩ 2 b2 [(0, 0), (1, 1)]
      (mkBoard [[0, 0], [1, 1]] [(0, 0), (1, 1)]) [[(0, 0)], [(1, 1)]]
      [PtrAction.clickA (0, 0), PtrAction.clickA (1, 1)] rfl rfl
      (by decide) (by decide) (by decide)).1,
   (c2_planner ⟨true, true, false⟩ 2 b2 [(0, 0), (1, 1)]
      (mkBoard [[0, 0], [1, 1]] [(0, 0), (1, 1)]) [[(0, 0)], [(1, 1)]]
      [PtrAction.clickA (0, 0), PtrAction.clickA (1, 1)] rfl rfl
      (by decide) (by decide) (by decide)).2.1⟩

/-- Counterexample to C2 as stated: for the targets (0,0) and (0,2) on
a 3x3 board whose (0,1) is already crossed, the largest segment spans
the crossed cell; the planner toggles that cell (corrupting it to a
crown) and then aborts on list.remove - it never emits segments whose
union is the input set. -/
theorem c2_counterexample : ¬ PlannerClaim := by
  intro h
  obtain ⟨bx, segs, acts, hsome, _, _⟩ := h ⟨true, true, false⟩ 3 b3gap
    [(0, 0), (0, 2)] (by decide) (by decide) (by decide) rfl rfl
  have hnone : crossCellsPath ⟨true, true, false⟩ 3 b3gap [(0, 0), (0, 2)] =
      none := by decide
  rw [hnone] at hsome
  cases hsome

end Crowns
